import Mathlib

/-!
# Verification of the crawl pipeline against its specification

This development gives a shallow embedding, in Lean, of the core services of
the `rekloos` web crawler (URL normalization, frontier queue claiming, robots
caching, per-host rate limiting, dual-mode page fetching, content extraction,
and the worker crawl procedure), translated from the JavaScript sources under
`src/services` and `src/worker.js`, and proves or refutes the testable
properties stated in the specification.

Conventions used throughout:

* Time is modelled as a natural number of milliseconds.
* Database tables are modelled as in-memory lists of records; a `db.query`
  call that reads is a pure function of the list, one that writes produces a
  new list.
* Asynchronous JavaScript is modelled by explicit state passing; a sequence of
  `await`ed statements becomes function composition, and an interleaving of
  two concurrent executions is modelled by composing their individual
  primitive steps in the interleaved order.
* A thrown exception is modelled either by an `Except`/`Option` result or by
  an explicit outcome constructor, as noted at each definition.
-/

/-! ## Rate limiter (`src/services/rate-limiter.js`)

Per-host state kept in Redis: `lastRequest:{domain}` (a timestamp in ms) and
`delay:{domain}`.  We model the state for a single fixed domain; `Option Nat`
is the stored `lastRequest` value (`none` = key absent or expired).  Redis
errors are not modelled (the claim concerns the non-error path). -/

structure RLState where
  lastRequest : Option Nat
  deriving Repr, DecidableEq

/-- `RateLimiter.shouldWait` (rate-limiter.js lines 38-66): reads
`lastRequest:{domain}`; if absent, stores `now` and returns 0; otherwise, if
`now - lastRequest < delay`, returns the remaining wait WITHOUT touching the
stored timestamp; otherwise stores `now` and returns 0. Returns the wait time
in ms together with the updated state. -/
def shouldWait (now delay : Nat) (st : RLState) : Nat × RLState :=
  match st.lastRequest with
  | none => (0, ⟨some now⟩)
  | some lastRequestTime =>
    if now - lastRequestTime < delay then
      (delay - (now - lastRequestTime), st)
    else
      (0, ⟨some now⟩)

/-- `RateLimiter.wait` (rate-limiter.js lines 68-74): calls `shouldWait` and
sleeps the returned time.  Given the call's start time, returns the time at
which the call completes, together with the state it leaves behind. -/
def wait (start delay : Nat) (st : RLState) : Nat × RLState :=
  let (waitTime, st') := shouldWait start delay st
  (start + waitTime, st')

/-- Run a sequence of back-to-back `wait` calls: each call starts at the
instant the previous one completed.  Returns the list of completion times and
the final state. -/
def runWaits (delay : Nat) : Nat → RLState → Nat → List Nat × RLState
  | _, st, 0 => ([], st)
  | start, st, n + 1 =>
    let (finish, st') := wait start delay st
    let (rest, stFinal) := runWaits delay finish st' n
    (finish :: rest, stFinal)

/-! ## Page fetcher (`src/services/crawler.js`, `fetchPage` / `fetchWithHTTP` /
`fetchWithPuppeteer`)

The network is abstracted by the outcome of the underlying `axios.get` call
(resp. the Puppeteer navigation); everything the fetcher itself does with that
outcome is translated from the source. -/

/-- Outcome of `axios.get(url, {..., validateStatus: status < 400})` in
`fetchWithHTTP`: the promise resolves only for status `< 400`; a status
`≥ 400` surfaces as an error carrying `error.response.status`; connection
refused / DNS failure carry `error.code`; anything else (timeout, body-size
cap, ...) carries only a message. -/
inductive AxiosOutcome where
  | response (status : Nat) (contentTypeHeader : Option String) (body : String)
      (lastModified : Option String)
  | connRefused
  | dnsNotFound
  | httpError (status : Nat)
  | otherError (msg : String)
  deriving Repr, DecidableEq

structure FetchSuccess where
  content : String
  contentType : String
  statusCode : Nat
  lastModified : Option String
  deriving Repr, DecidableEq

/-- Result of a fetch phase: `{success: true, ...}` or
`{success: false, error}`. -/
inductive FetchResult where
  | ok (r : FetchSuccess)
  | err (msg : String)
  deriving Repr, DecidableEq

def FetchResult.success : FetchResult → Bool
  | .ok _ => true
  | .err _ => false

/-- `mime.lookup(contentType)` from the `mime-types` package keys on file
extensions, so on a media-type header value such as `"text/html"` or
`"image/png; charset=x"` (no recognised extension) it returns `false`; on the
header strings reaching this call it is therefore constantly `false`,
modelled as `none`. -/
def mimeLookup (_ : String) : Option String := none

/-- Characters of a string up to (excluding) the first `;`. -/
def takeUntilSemi : List Char → List Char
  | [] => []
  | c :: cs => if c = ';' then [] else c :: takeUntilSemi cs

/-- `contentType.split(';')[0]`. -/
def mimePart (s : String) : String := ⟨takeUntilSemi s.data⟩

/-- `response.headers['content-type'] || 'text/html'`: a missing header and
an empty-string header (both falsy) fall back to `text/html`. -/
def contentTypeOr (h : Option String) : String :=
  match h with
  | none => "text/html"
  | some s => if s = "" then "text/html" else s

/-- The configured MIME allow-list (`config.crawler.allowedContentTypes`). -/
def allowedContentTypes : List String :=
  ["text/html", "text/plain", "application/pdf", "application/json"]

/-- `Crawler.fetchWithHTTP` (crawler.js lines 157-199), as a function of the
axios outcome. -/
def fetchWithHTTP (allowed : List String) (r : AxiosOutcome) : FetchResult :=
  match r with
  | .response status ctHeader body lastMod =>
    let contentType := contentTypeOr ctHeader
    let mimeType := (mimeLookup contentType).getD (mimePart contentType)
    if allowed.contains mimeType then
      .ok ⟨body, mimeType, status, lastMod⟩
    else
      .err "Unsupported content type"
  | .connRefused => .err "Connection failed"
  | .dnsNotFound => .err "Connection failed"
  | .httpError status => .err ("HTTP " ++ toString status)
  | .otherError msg => .err msg

/-- Outcome of the Puppeteer `page.goto` navigation in `fetchWithPuppeteer`:
either the page loaded with a status and rendered HTML, or navigation threw. -/
inductive PuppeteerOutcome where
  | loaded (status : Nat) (renderedHTML : String) (contentTypeHeader : Option String)
      (lastModified : Option String)
  | failed (msg : String)
  deriving Repr, DecidableEq

/-- `Crawler.fetchWithPuppeteer` (crawler.js lines 201-256), as a function of
the navigation outcome. -/
def fetchWithPuppeteer (p : PuppeteerOutcome) : FetchResult :=
  match p with
  | .loaded status html ctHeader lastMod =>
    if 400 ≤ status then .err ("HTTP " ++ toString status)
    else .ok ⟨html, mimePart (contentTypeOr ctHeader), status, lastMod⟩
  | .failed msg => .err msg

/-- `Crawler.fetchPage` (crawler.js lines 126-155): try the plain HTTP phase;
on success return it; otherwise fall back to the Puppeteer phase.  The second
component records whether the rendered (headless-browser) phase was
attempted. -/
def fetchPage (allowed : List String) (h : AxiosOutcome) (p : PuppeteerOutcome) :
    FetchResult × Bool :=
  let httpResult := fetchWithHTTP allowed h
  match httpResult with
  | .ok r => (.ok r, false)
  | .err _ => (fetchWithPuppeteer p, true)

/-! ## Robots service (`src/services/robots-service.js`)

The `robots-parser` library object is abstracted by the raw robots.txt body it
was built from; its `isAllowed`/`getCrawlDelay` methods are passed in as
function arguments where needed.  The two caches are modelled as association
lists: the in-process `Map` keyed by domain, and the `robots_cache` table. -/

/-- A cached in-process entry `{robots, timestamp}`.  Note the code also
caches a `null` robots value (`robots` is the raw body when present). -/
structure RobotsMemEntry where
  robots : Option String
  timestamp : Nat
  deriving Repr, DecidableEq

/-- A `robots_cache` row: `(domain, robots_txt, crawl_delay, last_updated)`
minus the key. -/
structure RobotsDBRow where
  robotsTxt : String
  crawlDelay : Nat
  lastUpdated : Nat
  deriving Repr, DecidableEq

structure RobotsState where
  mem : List (String × RobotsMemEntry)
  dbc : List (String × RobotsDBRow)
  deriving Repr, DecidableEq

/-- `this.cacheExpiry = 24 * 60 * 60 * 1000`. -/
def cacheExpiry : Nat := 24 * 60 * 60 * 1000

/-- Replace-or-insert into an association list (a JS `Map.set`, resp. the SQL
`ON CONFLICT ... DO UPDATE` upsert). -/
def upsertAssoc {α : Type} (k : String) (v : α) (l : List (String × α)) :
    List (String × α) :=
  (k, v) :: l.filter (fun p => p.1 ≠ k)

/-- Outcome of the `axios.get` on `https://{domain}/robots.txt` with
`validateStatus: status < 500`: any status `< 500` resolves; `5xx` rejects
with `error.response.status`; DNS failure rejects with `ENOTFOUND`; other
network errors reject with only a message. -/
inductive RobotsFetchOutcome where
  | resolved (status : Nat) (body : String)
  | serverError (status : Nat)
  | dnsNotFound
  | networkError (msg : String)
  deriving Repr, DecidableEq

/-- `RobotsService.fetchRobotsTxt` (robots-service.js lines 93-125): returns a
parser built from the body only for a 200 with a truthy (non-empty) body;
every other resolved status, and every error (404/DNS logged as "no
robots.txt", the rest logged as a warning), yields `null`. -/
def fetchRobotsTxt (outcome : RobotsFetchOutcome) : Option String :=
  match outcome with
  | .resolved status body =>
    if status = 200 ∧ body ≠ "" then some body else none
  | .serverError _ => none
  | .dnsNotFound => none
  | .networkError _ => none

/-- Models `robots ? (robots.getCrawlDelay('*') || 1) : 1` on the fetch
result.  The bodies reaching the claims below carry no `Crawl-delay`
directive, and on the `null` path the code stores the literal 1, so the
library's delay extraction is modelled as the default 1. -/
def crawlDelayOf (robots : Option String) : Nat :=
  match robots with
  | some _ => 1
  | none => 1

/-- The fetch-and-cache tail of `getRobotsTxt` (robots-service.js lines
66-86): run `fetchRobotsTxt`; store its result — including a `null` result —
in the in-process cache with the current timestamp; upsert a `robots_cache`
row whose body is the raw robots text or `''` when the fetch yielded `null`.
Returns the robots value and the updated caches. -/
def getRobotsTxtFetch (st : RobotsState) (now : Nat) (domain : String)
    (outcome : RobotsFetchOutcome) : Option String × RobotsState :=
  let robots := fetchRobotsTxt outcome
  let robotsText := match robots with | some b => b | none => ""
  let crawlDelay := crawlDelayOf robots
  (robots,
    { mem := upsertAssoc domain ⟨robots, now⟩ st.mem,
      dbc := upsertAssoc domain ⟨robotsText, crawlDelay, now⟩ st.dbc })

/-- `RobotsService.getRobotsTxt` (robots-service.js lines 39-91): a fresh
in-process entry wins (even one caching `null`); else a fresh `robots_cache`
row is re-parsed and promoted to the in-process cache; else the fetch-and-
cache tail runs.  A stale entry in either cache falls through to the fetch. -/
def getRobotsTxt (st : RobotsState) (now : Nat) (domain : String)
    (outcome : RobotsFetchOutcome) : Option String × RobotsState :=
  match st.mem.lookup domain with
  | some e =>
    if now - e.timestamp < cacheExpiry then (e.robots, st)
    else getRobotsTxtFetch st now domain outcome
  | none =>
    match st.dbc.lookup domain with
    | some row =>
      if now - row.lastUpdated < cacheExpiry then
        (some row.robotsTxt,
          { st with mem := upsertAssoc domain ⟨some row.robotsTxt, now⟩ st.mem })
      else getRobotsTxtFetch st now domain outcome
    | none => getRobotsTxtFetch st now domain outcome

structure RobotsCheck where
  allowed : Bool
  delay : Nat
  deriving Repr, DecidableEq

/-- `RobotsService.canCrawl` (robots-service.js lines 16-37) with
`respectRobotsTxt = true` and a non-throwing body: a `null` robots value is
fail-open `{allowed: true, delay: 1}`; otherwise the parser's `isAllowed` and
`getCrawlDelay` (passed here as function arguments abstracting the
`robots-parser` library) decide. -/
def canCrawl (st : RobotsState) (now : Nat) (domain : String)
    (outcome : RobotsFetchOutcome)
    (isAllowed : String → Bool) (delayFor : String → Option Nat) :
    RobotsCheck × RobotsState :=
  let (robots, st') := getRobotsTxt st now domain outcome
  match robots with
  | none => (⟨true, 1⟩, st')
  | some body => (⟨isAllowed body, (delayFor body).getD 1⟩, st')

/-! ## Frontier queue claiming (`src/services/url-manager.js`, `getNextURLs`)

A `url_queue` row, restricted to the columns the claim is about.  The SQL in
`getNextURLs` is two separate statements: a `SELECT` with
filter/order/limit, then — outside any transaction — an `UPDATE` of the
selected ids. -/

structure QRec where
  id : Nat
  status : String
  attempts : Nat
  priority : Int
  createdAt : Nat
  scheduledAt : Nat
  deriving Repr, DecidableEq

/-- `WHERE status = 'pending' AND scheduled_at <= NOW() AND attempts < 3`. -/
def claimEligible (now : Nat) (r : QRec) : Bool :=
  r.status = "pending" && r.scheduledAt ≤ now && r.attempts < 3

/-- `ORDER BY priority DESC, created_at ASC`. -/
def claimLE (a b : QRec) : Bool :=
  b.priority < a.priority || (a.priority = b.priority && a.createdAt ≤ b.createdAt)

def insertByClaimOrder (r : QRec) : List QRec → List QRec
  | [] => [r]
  | x :: xs => if claimLE r x then r :: x :: xs else x :: insertByClaimOrder r xs

def sortByClaimOrder : List QRec → List QRec
  | [] => []
  | x :: xs => insertByClaimOrder x (sortByClaimOrder xs)

/-- The `SELECT` statement of `getNextURLs` (url-manager.js lines 116-124):
ids of up to `limit` eligible rows in claim order.  A read: the state is
unchanged. -/
def selectIds (now limit : Nat) (q : List QRec) : List Nat :=
  ((sortByClaimOrder (q.filter (claimEligible now))).take limit).map (·.id)

/-- The `UPDATE` statement of `getNextURLs` (url-manager.js lines 128-132):
one statement setting `status = 'processing'` and `attempts = attempts + 1`
together on every row whose id is in the list. -/
def claimUpdate (ids : List Nat) (q : List QRec) : List QRec :=
  q.map (fun r =>
    if r.id ∈ ids then { r with status := "processing", attempts := r.attempts + 1 }
    else r)

/-- `URLManager.getNextURLs` (url-manager.js lines 114-140) run to completion
with no interleaved writer: `SELECT` then `UPDATE`. -/
def getNextURLs (now limit : Nat) (q : List QRec) : List Nat × List QRec :=
  let ids := selectIds now limit q
  (ids, claimUpdate ids q)

/-- Two concurrent `getNextURLs` executions interleaved at the await point
between their `SELECT` and `UPDATE` statements (both selects read the same
state, then both updates run).  Returns both claimed batches and the final
state. -/
def interleavedClaim (now limit : Nat) (q : List QRec) :
    List Nat × List Nat × List QRec :=
  let a := selectIds now limit q
  let b := selectIds now limit q
  (a, b, claimUpdate b (claimUpdate a q))

/-! ## URL normalizer & validator (`src/services/url-manager.js`)

`normalizeURL`, `isValidURL`, `extractDomain` and `shouldCrawlDomain` are
built on the `url-parse` library.  The library is modelled here on absolute
web URLs of the shape `scheme://authority/path?query#fragment`: the scheme is
split at the first `:`, `//` is required, the authority runs to the first of
`/ ? #`, the fragment is split off before the query (the library's rule
order), and the query is parsed into a key-value object with
first-occurrence-wins duplicate handling (`querystringify`).  Scheme and host
are lowercased.  Inputs outside this shape (no scheme, empty host) are
rejected — the unit tests pin `normalizeURL('not-a-url') = null`.  Userinfo,
default-port stripping and percent-decoding are not modelled; none of the
claims below involve them. -/

structure ParsedURL where
  protocol : String
  host : String
  pathname : String
  query : List (String × String)
  fragment : String
  deriving Repr, DecidableEq

/-- Split at the first occurrence of `ch`: chars before it, and `some` chars
after it (`none` when `ch` does not occur). -/
def breakAtChar (ch : Char) : List Char → List Char × Option (List Char)
  | [] => ([], none)
  | c :: cs =>
    if c = ch then ([], some cs)
    else
      let (a, b) := breakAtChar ch cs
      (c :: a, b)

/-- Longest prefix whose chars all fail `p`, and the remainder. -/
def spanUntil (p : Char → Bool) : List Char → List Char × List Char
  | [] => ([], [])
  | c :: cs =>
    if p c then ([], c :: cs)
    else
      let (a, b) := spanUntil p cs
      (c :: a, b)

/-- ASCII lowercasing (JavaScript `toLowerCase` on the ASCII range). -/
def lowerChar (c : Char) : Char :=
  if 65 ≤ c.toNat ∧ c.toNat ≤ 90 then Char.ofNat (c.toNat + 32) else c

def lowerChars (l : List Char) : List Char := l.map lowerChar

/-- An ASCII letter. -/
def schemeAlpha (c : Char) : Bool :=
  (65 ≤ c.toNat && c.toNat ≤ 90) || (97 ≤ c.toNat && c.toNat ≤ 122)

/-- A non-initial character of a URL scheme: letter, digit, `+`, `-`, `.`. -/
def schemeTail (c : Char) : Bool :=
  schemeAlpha c || (48 ≤ c.toNat && c.toNat ≤ 57) || c = '+' || c = '-' || c = '.'

/-- The `url-parse` protocol shape: a letter followed by letters, digits,
`+`, `-` or `.`. -/
def validSchemeChars : List Char → Bool
  | [] => false
  | c :: cs => schemeAlpha c && cs.all schemeTail

/-- Separator characters of the `querystringify` key pattern `[^=?#&]+`. -/
def qsepChar (c : Char) : Bool := c = '=' || c = '?' || c = '#' || c = '&'

/-- Scanner state for the `querystringify.parse` regex
`/([^=?#&]+)=?([^&]*)/g`. -/
inductive QPState where
  | seeking
  | inKey (key : List Char)
  | inValue (key : List Char) (value : List Char)

/-- One pass of the `querystringify.parse` regex: hunt for a maximal run of
non-separator chars (the key), optionally consume one `=`, then take
everything up to the next `&` as the value. Keys and values are accumulated
reversed. -/
def parseQPAux : List Char → QPState → List (String × String)
  | [], st =>
    match st with
    | .seeking => []
    | .inKey k => [(⟨k.reverse⟩, "")]
    | .inValue k v => [(⟨k.reverse⟩, ⟨v.reverse⟩)]
  | c :: cs, st =>
    match st with
    | .seeking =>
      if qsepChar c then parseQPAux cs .seeking else parseQPAux cs (.inKey [c])
    | .inKey k =>
      if c = '&' then (⟨k.reverse⟩, "") :: parseQPAux cs .seeking
      else if c = '=' then parseQPAux cs (.inValue k [])
      else if c = '?' || c = '#' then parseQPAux cs (.inValue k [c])
      else parseQPAux cs (.inKey (c :: k))
    | .inValue k v =>
      if c = '&' then (⟨k.reverse⟩, ⟨v.reverse⟩) :: parseQPAux cs .seeking
      else parseQPAux cs (.inValue k (c :: v))

/-- Invariant carried by the scanner state: accumulated key chars are
separator-free and nonempty, accumulated value chars are free of `&` and
`#`. -/
def QPStateOK : QPState → Prop
  | .seeking => True
  | .inKey k => k ≠ [] ∧ ∀ c ∈ k, qsepChar c = false
  | .inValue k v => k ≠ [] ∧ (∀ c ∈ k, qsepChar c = false) ∧ ∀ c ∈ v, c ≠ '&' ∧ c ≠ '#'

/-- `if (key in result) continue`: keep the first occurrence of each key. -/
def dedupKeysAux (seen : List String) : List (String × String) → List (String × String)
  | [] => []
  | p :: ps =>
    if p.1 ∈ seen then dedupKeysAux seen ps
    else p :: dedupKeysAux (p.1 :: seen) ps

def dedupKeys (l : List (String × String)) : List (String × String) := dedupKeysAux [] l

def natOfDigits (l : List Char) : Nat :=
  l.foldl (fun n c => n * 10 + (c.toNat - 48)) 0

/-- A JavaScript array-index property key: a canonical decimal numeral below
`2^32 - 1`.  Such keys are enumerated first, in ascending numeric order,
regardless of insertion order. -/
def isArrayIndex (s : String) : Bool :=
  match s.data with
  | [] => false
  | c :: cs =>
    c.isDigit && cs.all Char.isDigit && (decide (s.data = ['0']) || c ≠ '0') &&
      natOfDigits s.data < 4294967295

def keyNum (p : String × String) : Nat := natOfDigits p.1.data

def numLE (p q : String × String) : Prop := keyNum p ≤ keyNum q

instance : DecidableRel numLE := fun p q => Nat.decLe (keyNum p) (keyNum q)

def sortByNum (l : List (String × String)) : List (String × String) :=
  l.insertionSort numLE

/-- JavaScript object property-enumeration order for a set of string keys:
array-index keys first in ascending numeric order, then the remaining keys in
insertion order. -/
def jsObjOrder (l : List (String × String)) : List (String × String) :=
  sortByNum (l.filter (fun p => isArrayIndex p.1)) ++
    l.filter (fun p => !isArrayIndex p.1)

/-- The parsed query object of `new URL(url, true)`, as its key-value pairs
in enumeration order. -/
def parseQuery (l : List Char) : List (String × String) :=
  jsObjOrder (dedupKeys (parseQPAux l .seeking))

def authEnd (c : Char) : Bool := c = '/' || c = '?' || c = '#'

/-- Recognize the literal `//` that must follow the scheme colon. -/
def slashSlash (l : List Char) : Option (List Char) :=
  match l with
  | a :: b :: rest => if a = '/' ∧ b = '/' then some rest else none
  | _ => none

/-- Authority/path/query/fragment parsing after `scheme://`. -/
def parseAfterScheme (schemeRaw rest2 : List Char) : Option ParsedURL :=
  let (hostRaw, tail) := spanUntil authEnd rest2
  if hostRaw.isEmpty then none
  else
    let (beforeHash, hashPart?) := breakAtChar '#' tail
    let (pathRaw, queryPart?) := breakAtChar '?' beforeHash
    some ⟨⟨lowerChars schemeRaw⟩, ⟨lowerChars hostRaw⟩, ⟨pathRaw⟩,
      parseQuery (queryPart?.getD []), ⟨hashPart?.getD []⟩⟩

def parseChars (l : List Char) : Option ParsedURL :=
  let (schemeRaw, rest?) := breakAtChar ':' l
  match rest? with
  | none => none
  | some rest =>
    if validSchemeChars schemeRaw then
      match slashSlash rest with
      | some rest2 => parseAfterScheme schemeRaw rest2
      | none => none
    else none

def parseURL (u : String) : Option ParsedURL := parseChars u.data

/-- Code-unit lexicographic comparison of JavaScript's default
`Array.prototype.sort()` comparator (code units compared as naturals). -/
def lexLeChars : List Char → List Char → Bool
  | [], _ => true
  | _ :: _, [] => false
  | a :: as, b :: bs =>
    if a.toNat < b.toNat then true
    else if b.toNat < a.toNat then false
    else lexLeChars as bs

def keyLE (p q : String × String) : Prop := lexLeChars p.1.data q.1.data = true

instance : DecidableRel keyLE := fun p q => instDecidableEqBool (lexLeChars p.1.data q.1.data) true

def sortPairsByKey (l : List (String × String)) : List (String × String) :=
  l.insertionSort keyLE

/-- `Object.keys(parsed.query).sort().reduce(...)` followed by
`parsed.set('query', sortedQuery)`: the keys are sorted lexicographically and
re-inserted, so the resulting object enumerates as `jsObjOrder` of the
lexicographically sorted pairs. -/
def sortedQueryObject (q : List (String × String)) : List (String × String) :=
  jsObjOrder (sortPairsByKey q)

/-- `if (parsed.pathname.endsWith('/') && parsed.pathname.length > 1)`
remove one trailing slash: the path ends with `/` and has at least two
characters exactly when its reversed character list starts `'/' :: c :: _`. -/
def stripTrailingSlash (s : String) : String :=
  match s.data.reverse with
  | '/' :: c :: rest => ⟨(c :: rest).reverse⟩
  | _ => s

/-- Whether the path ends in two consecutive slashes — the single situation
in which stripping one trailing slash leaves another behind. -/
def endsDoubleSlash (s : String) : Bool :=
  match s.data.reverse with
  | '/' :: '/' :: _ => true
  | _ => false

/-- The three mutations `normalizeURL` applies to the parsed URL: drop the
fragment, rebuild the query object with sorted keys, strip one trailing
slash. -/
def normParsed (p : ParsedURL) : ParsedURL :=
  { p with
    fragment := "",
    query := sortedQueryObject p.query,
    pathname := stripTrailingSlash p.pathname }

def pairChars (kv : String × String) : List Char :=
  kv.1.data ++ '=' :: kv.2.data

/-- `key=value` pairs joined by `&` (the `querystringify.stringify` body). -/
def queryChars : List (String × String) → List Char
  | [] => []
  | [kv] => pairChars kv
  | kv :: kv2 :: kvs => pairChars kv ++ '&' :: queryChars (kv2 :: kvs)

def serializeQuery (q : List (String × String)) : List Char :=
  match q with
  | [] => []
  | _ => '?' :: queryChars q

/-- `parsed.toString()`. -/
def serializeURL (p : ParsedURL) : String :=
  ⟨p.protocol.data ++ ':' :: '/' :: '/' :: p.host.data ++ p.pathname.data ++
    serializeQuery p.query ++
    (if p.fragment = "" then [] else '#' :: p.fragment.data)⟩

/-- The query keys are pairwise distinct. -/
def keysNodup (q : List (String × String)) : Prop := (q.map Prod.fst).Nodup

/-- A well-formed query key: nonempty and free of the separator characters,
as every key produced by the query scanner is. -/
def noSepKey (k : String) : Prop := k.data ≠ [] ∧ ∀ c ∈ k.data, qsepChar c = false

/-- A well-formed query value: free of `&` and `#`, as every value produced
by the query scanner on a fragment-free input is. -/
def okValue (v : String) : Prop := ∀ c ∈ v.data, c ≠ '&' ∧ c ≠ '#'

/-- The structural invariants of a parsed-and-normalized URL under which
serialization followed by re-parsing is the identity. -/
def WFParsed (p : ParsedURL) : Prop :=
  validSchemeChars p.protocol.data = true ∧
  lowerChars p.protocol.data = p.protocol.data ∧
  p.host.data ≠ [] ∧
  (∀ c ∈ p.host.data, authEnd c = false) ∧
  lowerChars p.host.data = p.host.data ∧
  (p.pathname.data = [] ∨ ∃ t, p.pathname.data = '/' :: t) ∧
  (∀ c ∈ p.pathname.data, c ≠ '?' ∧ c ≠ '#') ∧
  (∀ kv ∈ p.query, noSepKey kv.1 ∧ okValue kv.2) ∧
  p.fragment = ""

/-- `URLManager.normalizeURL` (url-manager.js lines 10-37). -/
def normalizeURL (u : String) : Option String :=
  match parseURL u with
  | none => none
  | some p => some (serializeURL (normParsed p))

/-- `URLManager.isValidURL` (url-manager.js lines 39-46). -/
def isValidURL (url : String) : Bool :=
  match parseURL url with
  | some p => p.protocol = "http" || p.protocol = "https"
  | none => false

/-- `URLManager.extractDomain` (url-manager.js lines 48-55): `parsed.hostname`
is the host without the port. -/
def extractDomain (url : String) : Option String :=
  match parseURL url with
  | some p => some ⟨(breakAtChar ':' p.host.data).1⟩
  | none => none

/-- `URLManager.shouldCrawlDomain` (url-manager.js lines 57-66). -/
def shouldCrawlDomain (url : String) (allowedDomains : List String) : Bool :=
  if allowedDomains.isEmpty then true
  else
    match extractDomain url with
    | none => false
    | some domain =>
      allowedDomains.any (fun allowed =>
        domain = allowed || (("." ++ allowed).data.isSuffixOf domain.data))

/-- `URLManager.isURLCrawled` (url-manager.js lines 68-82): a `null`
normalization is reported as already crawled; otherwise the `crawled_pages`
table (modelled by its list of URLs) is consulted.  The db-error fallback
(`false`) is not modelled. -/
def isURLCrawled (crawledPages : List String) (url : String) : Bool :=
  match normalizeURL url with
  | none => true
  | some n => crawledPages.contains n

/-! ## SHA-256 (`crypto.createHash('sha256').update(content).digest('hex')`)

A direct executable implementation of FIPS 180-4 SHA-256 over byte lists,
with 32-bit words as `Nat` reduced `% 2^32`.  Strings are hashed over their
UTF-8 bytes, as Node's `hash.update(string)` does by default. -/

def w32 (x : Nat) : Nat := x % 4294967296

def rotr32 (n x : Nat) : Nat := w32 ((x >>> n) ||| (x <<< (32 - n)))

def sha256K : List Nat :=
  [1116352408, 1899447441, 3049323471, 3921009573, 961987163, 1508970993,
   2453635748, 2870763221, 3624381080, 310598401, 607225278, 1426881987,
   1925078388, 2162078206, 2614888103, 3248222580, 3835390401, 4022224774,
   264347078, 604807628, 770255983, 1249150122, 1555081692, 1996064986,
   2554220882, 2821834349, 2952996808, 3210313671, 3336571891, 3584528711,
   113926993, 338241895, 666307205, 773529912, 1294757372, 1396182291,
   1695183700, 1986661051, 2177026350, 2456956037, 2730485921, 2820302411,
   3259730800, 3345764771, 3516065817, 3600352804, 4094571909, 275423344,
   430227734, 506948616, 659060556, 883997877, 958139571, 1322822218,
   1537002063, 1747873779, 1955562222, 2024104815, 2227730452, 2361852424,
   2428436474, 2756734187, 3204031479, 3329325298]

def sha256H0 : List Nat :=
  [1779033703, 3144134277, 1013904242, 2773480762,
   1359893119, 2600822924, 528734635, 1541459225]

/-- `count` big-endian bytes of `n`. -/
def toBytesBE (n : Nat) : Nat → List Nat
  | 0 => []
  | k + 1 => toBytesBE (n / 256) k ++ [n % 256]

/-- Group bytes into big-endian 32-bit words. -/
def bytesToWords : List Nat → List Nat
  | a :: b :: c :: d :: rest =>
    (a * 16777216 + b * 65536 + c * 256 + d) :: bytesToWords rest
  | _ => []

/-- One message-schedule extension step over the reversed schedule (newest
word first): `w[i] = σ1(w[i-2]) + w[i-7] + σ0(w[i-15]) + w[i-16]`. -/
def extendStep (wrev : List Nat) : Nat :=
  let g := fun (k : Nat) => wrev.getD (k - 1) 0
  let s0 := rotr32 7 (g 15) ^^^ rotr32 18 (g 15) ^^^ (g 15 >>> 3)
  let s1 := rotr32 17 (g 2) ^^^ rotr32 19 (g 2) ^^^ (g 2 >>> 10)
  w32 (g 16 + s0 + g 7 + s1)

def extendAux : Nat → List Nat → List Nat
  | 0, wrev => wrev
  | n + 1, wrev => extendAux n (extendStep wrev :: wrev)

/-- The 64-word message schedule of one 64-byte chunk. -/
def sha256Schedule (chunk : List Nat) : List Nat :=
  (extendAux 48 (bytesToWords chunk).reverse).reverse

/-- One round of the compression loop on state `[a,b,c,d,e,f,g,h]` with the
pair (schedule word, round constant). -/
def compressStep (st : List Nat) (wk : Nat × Nat) : List Nat :=
  match st with
  | [a, b, c, d, e, f, g, hh] =>
    let S1 := rotr32 6 e ^^^ rotr32 11 e ^^^ rotr32 25 e
    let ch := (e &&& f) ^^^ ((e ^^^ 4294967295) &&& g)
    let temp1 := w32 (hh + S1 + ch + wk.2 + wk.1)
    let S0 := rotr32 2 a ^^^ rotr32 13 a ^^^ rotr32 22 a
    let maj := (a &&& b) ^^^ (a &&& c) ^^^ (b &&& c)
    let temp2 := w32 (S0 + maj)
    [w32 (temp1 + temp2), a, b, c, w32 (d + temp1), e, f, g]
  | other => other

/-- Process one 64-byte chunk into the running hash state. -/
def sha256Compress (h : List Nat) (chunk : List Nat) : List Nat :=
  let final := ((sha256Schedule chunk).zip sha256K).foldl compressStep h
  List.zipWith (fun x y => w32 (x + y)) h final

/-- Split into 64-byte chunks (`fuel` bounds the recursion by the list
length). -/
def chunks64Aux : Nat → List Nat → List (List Nat)
  | 0, _ => []
  | _, [] => []
  | fuel + 1, l => l.take 64 :: chunks64Aux fuel (l.drop 64)

/-- SHA-256 of a byte list, as 32 bytes. -/
def sha256Bytes (msg : List Nat) : List Nat :=
  let padZeros := (64 - (msg.length + 9) % 64) % 64
  let padded := msg ++ 128 :: List.replicate padZeros 0 ++ toBytesBE (8 * msg.length) 8
  let hs := (chunks64Aux padded.length padded).foldl sha256Compress sha256H0
  hs.flatMap (fun h => toBytesBE h 4)

def hexDigit (n : Nat) : Char :=
  if n < 10 then Char.ofNat (48 + n) else Char.ofNat (87 + n)

def toHexBytes (bytes : List Nat) : String :=
  ⟨bytes.flatMap (fun b => [hexDigit (b / 16), hexDigit (b % 16)])⟩

/-- UTF-8 encoding of one character. -/
def utf8Bytes (c : Char) : List Nat :=
  let n := c.toNat
  if n < 128 then [n]
  else if n < 2048 then [192 ||| (n >>> 6), 128 ||| (n &&& 63)]
  else if n < 65536 then
    [224 ||| (n >>> 12), 128 ||| ((n >>> 6) &&& 63), 128 ||| (n &&& 63)]
  else
    [240 ||| (n >>> 18), 128 ||| ((n >>> 12) &&& 63), 128 ||| ((n >>> 6) &&& 63),
     128 ||| (n &&& 63)]

/-- `crypto.createHash('sha256').update(s).digest('hex')`. -/
def sha256Hex (s : String) : String :=
  toHexBytes (sha256Bytes (s.data.flatMap utf8Bytes))

/-! ## Content extractor (`src/services/content-extractor.js`) -/

/-- JavaScript `\s` restricted to its ASCII members (space, tab, LF, VT, FF,
CR); the Unicode space characters it also matches do not occur in the inputs
considered here. -/
def isJSWhitespace (c : Char) : Bool :=
  c = ' ' || c = '\t' || c = '\n' || c = '\x0b' || c = '\x0c' || c = '\r'

/-- `.replace(/\s+/g, ' ')`: each maximal whitespace run becomes one space
(`prevWS` records whether the previous char was part of a run). -/
def collapseWSAux (prevWS : Bool) : List Char → List Char
  | [] => []
  | c :: cs =>
    if isJSWhitespace c then
      if prevWS then collapseWSAux true cs else ' ' :: collapseWSAux true cs
    else c :: collapseWSAux false cs

/-- `.replace(/[\r\n\t]/g, ' ')`. -/
def stripCRLFTab (l : List Char) : List Char :=
  l.map (fun c => if c = '\r' || c = '\n' || c = '\t' then ' ' else c)

/-- JavaScript `.trim()`. -/
def trimChars (l : List Char) : List Char :=
  ((l.dropWhile isJSWhitespace).reverse.dropWhile isJSWhitespace).reverse

/-- `ContentExtractor.cleanText` (content-extractor.js lines 215-223):
collapse whitespace runs, replace CR/LF/TAB by spaces, trim, truncate to
50,000 chars. -/
def cleanText (s : String) : String :=
  ⟨(trimChars (stripCRLFTab (collapseWSAux false s.data))).take 50000⟩

def countWordsAux (inWord : Bool) (acc : Nat) : List Char → Nat
  | [] => acc
  | c :: cs =>
    if isJSWhitespace c then countWordsAux false acc cs
    else if inWord then countWordsAux true acc cs
    else countWordsAux true (acc + 1) cs

/-- `ContentExtractor.countWords` (content-extractor.js lines 225-228): the
number of maximal non-whitespace runs. -/
def countWords (s : String) : Nat := countWordsAux false 0 s.data

/-! ### JSON values and `JSON.stringify(parsed, null, 2)`

`extractFromJSON` parses the body with `JSON.parse` and re-serializes it with
2-space indentation.  The model works on the parse result directly: a body
that fails to parse yields `null` and produces no record, so the claims about
produced records quantify over parsed values.  Numbers are modelled as
integers (the bodies considered here contain no fractional literals). -/

inductive JValue where
  | null
  | bool (b : Bool)
  | num (n : Int)
  | str (s : String)
  | arr (items : List JValue)
  | obj (fields : List (String × JValue))
  deriving Repr

def escapeJSONChar (c : Char) : List Char :=
  if c = '"' then ['\\', '"']
  else if c = '\\' then ['\\', '\\']
  else if c = '\n' then ['\\', 'n']
  else if c = '\r' then ['\\', 'r']
  else if c = '\t' then ['\\', 't']
  else if c.toNat < 32 then
    ['\\', 'u', '0', '0', hexDigit (c.toNat / 16), hexDigit (c.toNat % 16)]
  else [c]

def quoteJSON (s : String) : String :=
  ⟨'"' :: s.data.flatMap escapeJSONChar ++ ['"']⟩

def jsonSpaces (n : Nat) : String := ⟨List.replicate n ' '⟩

mutual

/-- `JSON.stringify(v, null, 2)` at the given current indentation. -/
def stringifyAux (indent : Nat) : JValue → String
  | .null => "null"
  | .bool true => "true"
  | .bool false => "false"
  | .num n => toString n
  | .str s => quoteJSON s
  | .arr [] => "[]"
  | .arr (x :: xs) =>
    "[\n" ++ stringifyItems (indent + 2) (x :: xs) ++ "\n" ++ jsonSpaces indent ++ "]"
  | .obj [] => "\x7b\x7d"
  | .obj (f :: fs) =>
    "\x7b\n" ++ stringifyFields (indent + 2) (f :: fs) ++ "\n" ++ jsonSpaces indent ++ "\x7d"

def stringifyItems (indent : Nat) : List JValue → String
  | [] => ""
  | [x] => jsonSpaces indent ++ stringifyAux indent x
  | x :: y :: xs =>
    jsonSpaces indent ++ stringifyAux indent x ++ ",\n" ++ stringifyItems indent (y :: xs)

def stringifyFields (indent : Nat) : List (String × JValue) → String
  | [] => ""
  | [(k, v)] => jsonSpaces indent ++ quoteJSON k ++ ": " ++ stringifyAux indent v
  | (k, v) :: f :: fs =>
    jsonSpaces indent ++ quoteJSON k ++ ": " ++ stringifyAux indent v ++ ",\n" ++
      stringifyFields indent (f :: fs)

end

def stringify2 (v : JValue) : String := stringifyAux 0 v

/-! ## The crawl procedure (`src/services/crawler.js`, `crawlURL` /
`queueNewURLs`) and the worker (`src/worker.js`)

`crawlURL` is modelled as a function of the URL job data and an environment
fixing the outcome of each external interaction (recency query, robots
check, fetch, extraction, page save, index submission).  Alongside its
result it returns the ordered trace of the externally visible steps it
performed, so "performs no fetch" and "enqueues exactly these links" are
statements about the trace. -/

structure Link where
  url : String
  text : String
  deriving Repr, DecidableEq

/-- The record produced by the content extractor, restricted to the fields
the crawler consumes.  `links` is `none` when the extracted object carries no
`links` field at all (plain-text/JSON records), which is falsy in the
frontier-expansion guard; an HTML record always carries a — possibly empty —
links array (`some`). -/
structure Extracted where
  title : String
  content : String
  contentType : String
  wordCount : Nat
  contentHash : String
  links : Option (List Link)
  deriving Repr, DecidableEq

/-- `ContentExtractor.extractFromPlainText` (content-extractor.js lines
248-256): the stored `content` is the CLEANED text, but `wordCount` and
`contentHash` are computed over the RAW input text. -/
def extractFromPlainText (text : String) : Extracted :=
  { title := ""
    content := cleanText text
    contentType := "text/plain"
    wordCount := countWords text
    contentHash := sha256Hex text
    links := none }

/-- `ContentExtractor.extractFromJSON` (content-extractor.js lines 258-273)
on an already-parsed body: `content = JSON.stringify(parsed, null, 2)`; the
stored `content` field is `cleanText content`, while `wordCount` and
`contentHash` are computed over the pretty-printed string BEFORE cleaning. -/
def extractFromJSON (parsed : JValue) : Extracted :=
  let content := stringify2 parsed
  { title := ""
    content := cleanText content
    contentType := "application/json"
    wordCount := countWords content
    contentHash := sha256Hex content
    links := none }

/-- The HTML path of `ContentExtractor.extractFromHTML` (content-extractor.js
lines 14-44) with the cheerio DOM selection abstracted: `selectedText` is the
raw text of the main content area (or the body fallback).
`extractMainContent` returns `cleanText selectedText` (lines 92-121); the
record stores that cleaned string as `content` and hashes the SAME cleaned
string (line 36).  The record itself carries no `contentType` field in the
source; the crawler attaches the fetch's content type, recorded here
directly. -/
def extractFromHTMLCore (title selectedText : String) (links : List Link) : Extracted :=
  let content := cleanText selectedText
  { title := title
    content := content
    contentType := "text/html"
    wordCount := countWords content
    contentHash := sha256Hex content
    links := some links }

/-- `Crawler.queueNewURLs` (crawler.js lines 312-334): the urls actually
enqueued — each link is kept only if it is a valid URL, passes the domain
filter, and is not already crawled. -/
def queueNewURLsFilter (links : List Link) (domainFilter : List String)
    (crawledPages : List String) : List String :=
  (links.filter (fun link =>
    isValidURL link.url && shouldCrawlDomain link.url domainFilter &&
      !isURLCrawled crawledPages link.url)).map (·.url)

/-- Environment of one `crawlURL` run: the answer each awaited collaborator
would give.  `saveError`/`indexError` model `saveCrawledPage` (which
re-throws db errors) resp. `elasticsearchService.indexDocument` throwing. -/
structure CrawlEnv where
  recentlyCrawled : Bool
  robotsAllowed : Bool
  robotsDelay : Nat
  fetchResult : FetchResult
  extracted : Option Extracted
  saveError : Option String
  indexError : Option String
  crawledPages : List String
  deriving Repr, DecidableEq

/-- One externally visible step of `crawlURL`. -/
inductive CrawlStep where
  | recencyCheck
  | robotsCheck
  | setDelay (ms : Nat)
  | rateWait
  | fetchCall
  | extractCall
  | saveCall
  | indexCall
  | enqueue (url : String) (depth : Nat)
  | markProcessed (success : Bool) (errorMessage : Option String)
  deriving Repr, DecidableEq

/-- Result object of `crawlURL`: `{success, skipped?, reason?/error?}` with
the reason/error strings merged into one optional field. -/
structure CrawlOutcome where
  success : Bool
  skipped : Bool
  reason : Option String
  deriving Repr, DecidableEq

/-- `Crawler.crawlURL` (crawler.js lines 42-124).  The `try` body runs steps
1-9 in order; `saveCrawledPage` and `indexDocument` are the exception sources
modelled, and a thrown exception lands in the `catch` (lines 119-123), which
marks the URL failed with the exception message and RETURNS a plain
`{success: false, error}` result. -/
def crawlURL (env : CrawlEnv) (depth maxDepth : Nat) (domainFilter : List String) :
    CrawlOutcome × List CrawlStep :=
  if env.recentlyCrawled then
    (⟨true, true, none⟩, [.recencyCheck])
  else if !env.robotsAllowed then
    (⟨false, false, some "robots.txt"⟩,
      [.recencyCheck, .robotsCheck, .markProcessed false (some "Disallowed by robots.txt")])
  else
    let pre : List CrawlStep :=
      [.recencyCheck, .robotsCheck, .setDelay (env.robotsDelay * 1000), .rateWait, .fetchCall]
    match env.fetchResult with
    | .err msg =>
      (⟨false, false, some msg⟩, pre ++ [.markProcessed false (some msg)])
    | .ok _ =>
      match env.extracted with
      | none =>
        (⟨false, false, some "extraction"⟩,
          pre ++ [.extractCall, .markProcessed false (some "Content extraction failed")])
      | some ext =>
        match env.saveError with
        | some msg =>
          (⟨false, false, some msg⟩,
            pre ++ [.extractCall, .saveCall, .markProcessed false (some msg)])
        | none =>
          match env.indexError with
          | some msg =>
            (⟨false, false, some msg⟩,
              pre ++ [.extractCall, .saveCall, .indexCall, .markProcessed false (some msg)])
          | none =>
            let enqueues :=
              if depth < maxDepth ∧ ext.links.isSome then
                (queueNewURLsFilter (ext.links.getD []) domainFilter env.crawledPages).map
                  (fun u => CrawlStep.enqueue u (depth + 1))
              else []
            (⟨true, false, none⟩,
              pre ++ [.extractCall, .saveCall, .indexCall] ++ enqueues ++
                [.markProcessed true none])

/-- `CrawlerWorker.processCrawlJob` (worker.js lines 46-121): the handler
around `crawlURL`.  An `Except.error` models a re-thrown exception reaching
the job queue.  Because `crawlURL` catches every step 4-8 exception itself
and converts it into a plain failure result, the handler's own `catch`
(which alone re-throws) never fires for those exceptions, and the handler
returns the result normally. -/
def processCrawlJob (env : CrawlEnv) (depth maxDepth : Nat)
    (domainFilter : List String) : Except String CrawlOutcome :=
  Except.ok (crawlURL env depth maxDepth domainFilter).1

/-- A `url_queue` row as dispatched by the frontier pump. -/
structure URLRow where
  url : String
  depth : Nat
  jobId : Option Nat
  deriving Repr, DecidableEq

/-- Payload of a job added to the dispatch queue. -/
structure JobPayload where
  url : String
  depth : Nat
  maxDepth : Nat
  domainFilter : List String
  priority : Nat
  crawlJobId : Option Nat
  deriving Repr, DecidableEq

/-- `CrawlerWorker.startURLProcessingLoop` (worker.js lines 133-146): each
claimed frontier record is dispatched with its own url and depth, but with a
HARDCODED `maxDepth: 10` ("Default max depth for discovered URLs") and an
empty domain filter — not the owning crawl job's configured values. -/
def pumpDispatch (r : URLRow) : JobPayload :=
  ⟨r.url, r.depth, 10, [], 5, r.jobId⟩

/-- The enqueue steps of a crawl trace, as `(url, depth)` pairs. -/
def enqueuesOf (steps : List CrawlStep) : List (String × Nat) :=
  steps.filterMap (fun s =>
    match s with
    | .enqueue u d => some (u, d)
    | _ => none)

/-- C4. The claim states that within one process any two successive `wait`
calls for the same host complete at least `delay` apart, because `wait`
records `last_request_ts = now` after every call, including calls that slept.
The code contradicts this: `shouldWait` leaves the stored timestamp unchanged
on the sleeping branch (and the `updateLastRequest` method that would refresh
it is never called), so in a back-to-back run with delay 1000 ms starting from
an empty store the three calls complete at times 0, 1000 and 1000: after the
second (sleeping) call the stored timestamp is still 0, the third call sees
`elapsed = 1000 ≥ delay` and returns immediately, giving two successive
completions 0 ms apart. -/
theorem wait_spacing_violated_at_three_calls :
    runWaits 1000 0 ⟨none⟩ 3 = ([0, 1000, 1000], ⟨some 1000⟩) ∧
    (wait 0 1000 (wait 0 1000 ⟨none⟩).2).2.lastRequest = some 0 ∧
    ((runWaits 1000 0 ⟨none⟩ 3).1.get? 2 = some 1000 ∧
      (runWaits 1000 0 ⟨none⟩ 3).1.get? 1 = some 1000 ∧
      1000 - 1000 < 1000) := by
  decide

/-- C1, counterexample. The claim states that after a `< 400` status with a
Content-Type outside the allow-list the fetcher does not attempt the rendered
phase and the fetch fails with "Unsupported content type".  On the code,
`fetchPage` treats the MIME rejection like every other HTTP-phase failure and
falls back to Puppeteer: with a 200 `image/png` response and a rendered phase
that loads successfully, the rendered phase is attempted (second component
`true`) and the overall fetch even succeeds with the rendered HTML. -/
theorem fetchPage_unsupported_mime_counterexample :
    fetchWithHTTP allowedContentTypes
        (.response 200 (some "image/png") "PNGDATA" none)
      = .err "Unsupported content type" ∧
    fetchPage allowedContentTypes
        (.response 200 (some "image/png") "PNGDATA" none)
        (.loaded 200 "<html>rendered</html>" (some "text/html") none)
      = (.ok ⟨"<html>rendered</html>", "text/html", 200, none⟩, true) := by
  decide

/-- C1, amended. For every fetch in which the plain HTTP phase receives a
success status (< 400) but a Content-Type outside the configured allow-list,
the HTTP phase fails with reason "Unsupported content type", and the fetcher
DOES attempt the rendered (headless-browser) phase: the overall fetch outcome
is whatever the rendered phase returns. -/
theorem fetchPage_mime_rejection_attempts_rendered
    (allowed : List String) (status : Nat) (ct body : String) (lm : Option String)
    (p : PuppeteerOutcome)
    (hne : ct ≠ "")
    (hmime : mimePart ct ∉ allowed) :
    fetchWithHTTP allowed (.response status (some ct) body lm)
      = .err "Unsupported content type" ∧
    fetchPage allowed (.response status (some ct) body lm) p
      = (fetchWithPuppeteer p, true) := by
  have hct : contentTypeOr (some ct) = ct := by simp [contentTypeOr, hne]
  have h1 : fetchWithHTTP allowed (.response status (some ct) body lm)
      = .err "Unsupported content type" := by
    simp [fetchWithHTTP, mimeLookup, hct, hmime]
  exact ⟨h1, by simp [fetchPage, h1]⟩

/-- C1, witness: the amended theorem applied at a 200 `image/png` response
with a failing rendered phase. -/
theorem fetchPage_mime_rejection_attempts_rendered_witness :
    fetchWithHTTP allowedContentTypes (.response 200 (some "image/png") "PNG" none)
      = .err "Unsupported content type" ∧
    fetchPage allowedContentTypes (.response 200 (some "image/png") "PNG" none)
        (.failed "net::ERR_CONNECTION_REFUSED")
      = (fetchWithPuppeteer (.failed "net::ERR_CONNECTION_REFUSED"), true) :=
  fetchPage_mime_rejection_attempts_rendered allowedContentTypes 200 "image/png" "PNG"
    none (.failed "net::ERR_CONNECTION_REFUSED") (by decide) (by decide)

/-! ### Helper lemmas: splitting character lists -/

theorem breakAtChar_none_of (ch : Char) (l : List Char) (h : ∀ c ∈ l, c ≠ ch) :
    breakAtChar ch l = (l, none) := by
  induction l with
  | nil => rfl
  | cons c cs ih =>
    have hc : ¬ c = ch := h c (List.mem_cons_self c cs)
    simp [breakAtChar, hc, ih (fun x hx => h x (List.mem_cons_of_mem c hx))]

theorem breakAtChar_append (ch : Char) (a b : List Char) (h : ∀ c ∈ a, c ≠ ch) :
    breakAtChar ch (a ++ ch :: b) = (a, some b) := by
  induction a with
  | nil => simp [breakAtChar]
  | cons c cs ih =>
    have hc : ¬ c = ch := h c (List.mem_cons_self c cs)
    simp [breakAtChar, hc, ih (fun x hx => h x (List.mem_cons_of_mem c hx))]

theorem breakAtChar_fst_ne (ch : Char) (l : List Char) :
    ∀ c ∈ (breakAtChar ch l).1, c ≠ ch := by
  induction l with
  | nil => intro c hc; simp [breakAtChar] at hc
  | cons x xs ih =>
    intro c hc
    by_cases hx : x = ch
    · simp [breakAtChar, hx] at hc
    · simp [breakAtChar, hx] at hc
      rcases hc with rfl | hc
      · exact hx
      · exact ih c hc

theorem breakAtChar_fst_mem (ch : Char) (l : List Char) :
    ∀ c ∈ (breakAtChar ch l).1, c ∈ l := by
  induction l with
  | nil => intro c hc; simp [breakAtChar] at hc
  | cons x xs ih =>
    intro c hc
    by_cases hx : x = ch
    · simp [breakAtChar, hx] at hc
    · simp [breakAtChar, hx] at hc
      rcases hc with rfl | hc
      · exact List.mem_cons_self c xs
      · exact List.mem_cons_of_mem x (ih c hc)

theorem spanUntil_append (p : Char → Bool) (a b : List Char)
    (ha : ∀ c ∈ a, p c = false) (hb : ∀ c t, b = c :: t → p c = true) :
    spanUntil p (a ++ b) = (a, b) := by
  induction a with
  | nil =>
    cases b with
    | nil => rfl
    | cons c t => simp [spanUntil, hb c t rfl]
  | cons c cs ih =>
    have hc : p c = false := ha c (List.mem_cons_self c cs)
    simp [spanUntil, hc, ih (fun x hx => ha x (List.mem_cons_of_mem c hx))]

theorem spanUntil_fst_false (p : Char → Bool) (l : List Char) :
    ∀ c ∈ (spanUntil p l).1, p c = false := by
  induction l with
  | nil => intro c hc; simp [spanUntil] at hc
  | cons x xs ih =>
    intro c hc
    by_cases hx : p x
    · simp [spanUntil, hx] at hc
    · simp [spanUntil, hx] at hc
      rcases hc with rfl | hc
      · simpa using hx
      · exact ih c hc

theorem spanUntil_snd_head (p : Char → Bool) (l : List Char) :
    (spanUntil p l).2 = [] ∨ ∃ c t, (spanUntil p l).2 = c :: t ∧ p c = true := by
  induction l with
  | nil => left; rfl
  | cons x xs ih =>
    by_cases hx : p x
    · right; exact ⟨x, xs, by simp [spanUntil, hx], hx⟩
    · simpa [spanUntil, hx] using ih

theorem spanUntil_fst_mem (p : Char → Bool) (l : List Char) :
    ∀ c ∈ (spanUntil p l).1, c ∈ l := by
  induction l with
  | nil => intro c hc; simp [spanUntil] at hc
  | cons x xs ih =>
    intro c hc
    by_cases hx : p x
    · simp [spanUntil, hx] at hc
    · simp [spanUntil, hx] at hc
      rcases hc with rfl | hc
      · exact List.mem_cons_self c xs
      · exact List.mem_cons_of_mem x (ih c hc)

theorem spanUntil_snd_mem (p : Char → Bool) (l : List Char) :
    ∀ c ∈ (spanUntil p l).2, c ∈ l := by
  induction l with
  | nil => intro c hc; simp [spanUntil] at hc
  | cons x xs ih =>
    intro c hc
    by_cases hx : p x
    · simpa [spanUntil, hx] using hc
    · simp [spanUntil, hx] at hc
      exact List.mem_cons_of_mem x (ih c hc)

theorem breakAtChar_snd_mem (ch : Char) (l : List Char) :
    ∀ b, (breakAtChar ch l).2 = some b → ∀ c ∈ b, c ∈ l := by
  induction l with
  | nil => intro b hb; simp [breakAtChar] at hb
  | cons x xs ih =>
    intro b hb c hc
    by_cases hx : x = ch
    · simp [breakAtChar, hx] at hb
      exact hb ▸ List.mem_cons_of_mem x hc
    · simp [breakAtChar, hx] at hb
      exact List.mem_cons_of_mem x (ih b hb c hc)

/-! ### Helper lemmas: the query-object key orderings -/

instance : IsTotal (String × String) numLE := ⟨fun a b => Nat.le_total (keyNum a) (keyNum b)⟩

instance : IsTrans (String × String) numLE := ⟨fun _ _ _ => Nat.le_trans⟩

theorem lexLeChars_total (a b : List Char) :
    lexLeChars a b = true ∨ lexLeChars b a = true := by
  induction a generalizing b with
  | nil => left; rfl
  | cons x xs ih =>
    cases b with
    | nil => right; rfl
    | cons y ys =>
      by_cases h1 : x.toNat < y.toNat
      · left; simp [lexLeChars, h1]
      · by_cases h2 : y.toNat < x.toNat
        · right; simp [lexLeChars, h1, h2]
        · rcases ih ys with h | h
          · left; simp [lexLeChars, h1, h2, h]
          · right; simp [lexLeChars, h1, h2, h]

theorem lexLeChars_trans {a b c : List Char}
    (h1 : lexLeChars a b = true) (h2 : lexLeChars b c = true) :
    lexLeChars a c = true := by
  induction a generalizing b c with
  | nil => rfl
  | cons x xs ih =>
    cases b with
    | nil => simp [lexLeChars] at h1
    | cons y ys =>
      cases c with
      | nil => simp [lexLeChars] at h2
      | cons z zs =>
        simp only [lexLeChars] at h1 h2 ⊢
        by_cases hxy : x.toNat < y.toNat
        · rw [if_pos hxy] at h1
          by_cases hyz : y.toNat < z.toNat
          · rw [if_pos (by omega : x.toNat < z.toNat)]
          · by_cases hzy : z.toNat < y.toNat
            · rw [if_neg hyz, if_pos hzy] at h2; exact absurd h2 (by simp)
            · rw [if_pos (by omega : x.toNat < z.toNat)]
        · by_cases hyx : y.toNat < x.toNat
          · rw [if_neg hxy, if_pos hyx] at h1; exact absurd h1 (by simp)
          · rw [if_neg hxy, if_neg hyx] at h1
            by_cases hyz : y.toNat < z.toNat
            · rw [if_pos (by omega : x.toNat < z.toNat)]
            · by_cases hzy : z.toNat < y.toNat
              · rw [if_neg hyz, if_pos hzy] at h2; exact absurd h2 (by simp)
              · rw [if_neg hyz, if_neg hzy] at h2
                rw [if_neg (by omega : ¬ x.toNat < z.toNat),
                  if_neg (by omega : ¬ z.toNat < x.toNat)]
                exact ih h1 h2

theorem lexLeChars_antisymm {a b : List Char}
    (h1 : lexLeChars a b = true) (h2 : lexLeChars b a = true) : a = b := by
  induction a generalizing b with
  | nil =>
    cases b with
    | nil => rfl
    | cons y ys => simp [lexLeChars] at h2
  | cons x xs ih =>
    cases b with
    | nil => simp [lexLeChars] at h1
    | cons y ys =>
      simp only [lexLeChars] at h1 h2
      by_cases hxy : x.toNat < y.toNat
      · rw [if_neg (by omega : ¬ y.toNat < x.toNat), if_pos hxy] at h2
        exact absurd h2 (by simp)
      · by_cases hyx : y.toNat < x.toNat
        · rw [if_neg hxy, if_pos hyx] at h1; exact absurd h1 (by simp)
        · rw [if_neg hxy, if_neg hyx] at h1
          rw [if_neg hyx, if_neg hxy] at h2
          have hn : x.toNat = y.toNat := by omega
          have hx : x = y := Char.eq_of_val_eq (UInt32.toNat.inj hn)
          rw [hx, ih h1 h2]

instance : IsTotal (String × String) keyLE :=
  ⟨fun a b => by
    rcases lexLeChars_total a.1.data b.1.data with h | h
    · exact Or.inl h
    · exact Or.inr h⟩

instance : IsTrans (String × String) keyLE := ⟨fun _ _ _ => lexLeChars_trans⟩

theorem sortByNum_perm (l : List (String × String)) : (sortByNum l).Perm l :=
  List.perm_insertionSort numLE l

theorem sortPairsByKey_perm (l : List (String × String)) : (sortPairsByKey l).Perm l :=
  List.perm_insertionSort keyLE l

theorem sortByNum_idem (l : List (String × String)) :
    sortByNum (sortByNum l) = sortByNum l :=
  (List.sorted_insertionSort numLE l).insertionSort_eq

theorem jsObjOrder_perm (l : List (String × String)) : (jsObjOrder l).Perm l := by
  have h1 : (sortByNum (l.filter (fun p => isArrayIndex p.1)) ++
      l.filter (fun p => !isArrayIndex p.1)).Perm
      (l.filter (fun p => isArrayIndex p.1) ++ l.filter (fun p => !isArrayIndex p.1)) :=
    (sortByNum_perm _).append_right _
  exact h1.trans (List.filter_append_perm _ l)

theorem jsObjOrder_idem (l : List (String × String)) :
    jsObjOrder (jsObjOrder l) = jsObjOrder l := by
  have hA : ∀ x ∈ sortByNum (l.filter (fun p => isArrayIndex p.1)),
      isArrayIndex x.1 = true := by
    intro x hx
    have hx' := (sortByNum_perm _).mem_iff.mp hx
    exact (List.mem_filter.mp hx').2
  have hB : ∀ x ∈ l.filter (fun p => !isArrayIndex p.1), isArrayIndex x.1 = false := by
    intro x hx
    have hx' := (List.mem_filter.mp hx).2
    simpa using hx'
  have f1 : List.filter (fun p => isArrayIndex p.1)
        (sortByNum (l.filter (fun p => isArrayIndex p.1)))
      = sortByNum (l.filter (fun p => isArrayIndex p.1)) :=
    List.filter_eq_self.mpr hA
  have f2 : List.filter (fun p => isArrayIndex p.1)
        (l.filter (fun p => !isArrayIndex p.1)) = [] :=
    List.filter_eq_nil_iff.mpr (fun x hx => by simp [hB x hx])
  have f3 : List.filter (fun p => !isArrayIndex p.1)
        (sortByNum (l.filter (fun p => isArrayIndex p.1))) = [] :=
    List.filter_eq_nil_iff.mpr (fun x hx => by simp [hA x hx])
  have f4 : List.filter (fun p => !isArrayIndex p.1)
        (l.filter (fun p => !isArrayIndex p.1))
      = l.filter (fun p => !isArrayIndex p.1) :=
    List.filter_eq_self.mpr (fun x hx => by simp [hB x hx])
  have e1 : List.filter (fun p => isArrayIndex p.1) (jsObjOrder l)
      = sortByNum (l.filter (fun p => isArrayIndex p.1)) := by
    rw [jsObjOrder, List.filter_append, f1, f2, List.append_nil]
  have e2 : List.filter (fun p => !isArrayIndex p.1) (jsObjOrder l)
      = l.filter (fun p => !isArrayIndex p.1) := by
    rw [jsObjOrder, List.filter_append, f3, f4, List.nil_append]
  calc jsObjOrder (jsObjOrder l)
      = sortByNum (List.filter (fun p => isArrayIndex p.1) (jsObjOrder l)) ++
          List.filter (fun p => !isArrayIndex p.1) (jsObjOrder l) := rfl
    _ = jsObjOrder l := by rw [e1, e2, sortByNum_idem, jsObjOrder]

theorem dedupKeysAux_eq_self (seen : List String) (l : List (String × String))
    (hd : (l.map Prod.fst).Nodup) (hs : ∀ kv ∈ l, kv.1 ∉ seen) :
    dedupKeysAux seen l = l := by
  induction l generalizing seen with
  | nil => rfl
  | cons p ps ih =>
    have hp : p.1 ∉ seen := hs p (List.mem_cons_self p ps)
    rw [dedupKeysAux, if_neg hp]
    congr 1
    refine ih (p.1 :: seen) ((List.nodup_cons.mp hd).2) ?_
    intro kv hkv
    simp only [List.mem_cons]
    push_neg
    refine ⟨?_, hs kv (List.mem_cons_of_mem p hkv)⟩
    intro he
    exact (List.nodup_cons.mp hd).1 (he ▸ List.mem_map_of_mem Prod.fst hkv)

theorem dedupKeys_eq_self (l : List (String × String)) (hd : keysNodup l) :
    dedupKeys l = l :=
  dedupKeysAux_eq_self [] l hd (fun kv _ => List.not_mem_nil kv.1)

theorem dedupKeysAux_sublist (seen : List String) (l : List (String × String)) :
    (dedupKeysAux seen l).Sublist l := by
  induction l generalizing seen with
  | nil => exact List.Sublist.refl []
  | cons p ps ih =>
    rw [dedupKeysAux]
    by_cases hp : p.1 ∈ seen
    · rw [if_pos hp]; exact (ih seen).cons p
    · rw [if_neg hp]; exact (ih (p.1 :: seen)).cons₂ p

theorem dedupKeysAux_nodup (seen : List String) (l : List (String × String)) :
    ((dedupKeysAux seen l).map Prod.fst).Nodup ∧
      ∀ kv ∈ dedupKeysAux seen l, kv.1 ∉ seen := by
  induction l generalizing seen with
  | nil => exact ⟨List.nodup_nil, fun kv hkv => absurd hkv (List.not_mem_nil kv)⟩
  | cons p ps ih =>
    rw [dedupKeysAux]
    by_cases hp : p.1 ∈ seen
    · rw [if_pos hp]; exact ih seen
    · rw [if_neg hp]
      obtain ⟨hnd, hni⟩ := ih (p.1 :: seen)
      constructor
      · rw [List.map_cons, List.nodup_cons]
        refine ⟨?_, hnd⟩
        intro hmem
        obtain ⟨kv, hkv, he⟩ := List.mem_map.mp hmem
        exact hni kv hkv (he ▸ List.mem_cons_self _ _)
      · intro kv hkv
        rcases List.mem_cons.mp hkv with rfl | hkv
        · exact hp
        · exact fun hc => hni kv hkv (List.mem_cons_of_mem _ hc)

theorem dedupKeys_keysNodup (l : List (String × String)) : keysNodup (dedupKeys l) :=
  (dedupKeysAux_nodup [] l).1

theorem string_data_inj {s t : String} (h : s.data = t.data) : s = t := by
  cases s with
  | mk d1 =>
    cases t with
    | mk d2 => exact congrArg String.mk h

/-- Two permuted key-sorted pair lists with duplicate-free keys are equal. -/
theorem sorted_perm_keysNodup_eq :
    ∀ {l₁ l₂ : List (String × String)}, l₁.Perm l₂ →
      List.Sorted keyLE l₁ → List.Sorted keyLE l₂ → keysNodup l₁ → l₁ = l₂ := by
  intro l₁
  induction l₁ with
  | nil => intro l₂ hp _ _ _; exact hp.nil_eq
  | cons a t₁ ih =>
    intro l₂ hp hs₁ hs₂ hnd
    cases l₂ with
    | nil => exact absurd hp.symm.nil_eq (by simp)
    | cons b t₂ =>
      have hab : a = b := by
        by_contra hne
        have ha2 : a ∈ b :: t₂ := hp.mem_iff.mp (List.mem_cons_self a t₁)
        have hb1 : b ∈ a :: t₁ := hp.symm.mem_iff.mp (List.mem_cons_self b t₂)
        have hat2 : a ∈ t₂ := by
          rcases List.mem_cons.mp ha2 with h | h
          · exact absurd h hne
          · exact h
        have hbt1 : b ∈ t₁ := by
          rcases List.mem_cons.mp hb1 with h | h
          · exact absurd h.symm hne
          · exact h
        have h1 : keyLE a b := (List.sorted_cons.mp hs₁).1 b hbt1
        have h2 : keyLE b a := (List.sorted_cons.mp hs₂).1 a hat2
        have hkeys : a.1 = b.1 := string_data_inj (lexLeChars_antisymm h1 h2)
        have hmem : a.1 ∈ t₁.map Prod.fst :=
          hkeys ▸ List.mem_map_of_mem Prod.fst hbt1
        exact (List.nodup_cons.mp hnd).1 hmem
      subst hab
      have hpt : t₁.Perm t₂ := hp.cons_inv
      have ht := ih hpt (List.sorted_cons.mp hs₁).2 (List.sorted_cons.mp hs₂).2
        (List.nodup_cons.mp hnd).2
      rw [ht]

/-! ### Helper lemmas: the query scanner -/

theorem qsepChar_elim {c : Char} (h : qsepChar c = false) :
    ¬ c = '=' ∧ ¬ c = '?' ∧ ¬ c = '#' ∧ ¬ c = '&' := by
  have h' := h
  simp [qsepChar] at h'
  exact ⟨h'.1.1.1, h'.1.1.2, h'.1.2, h'.2⟩

theorem parseQPAux_key (ks rest acc : List Char)
    (h : ∀ c ∈ ks, qsepChar c = false) :
    parseQPAux (ks ++ '=' :: rest) (.inKey acc)
      = parseQPAux rest (.inValue (ks.reverse ++ acc) []) := by
  induction ks generalizing acc with
  | nil => simp [parseQPAux]
  | cons c cs ih =>
    obtain ⟨he, hq, hh, ha⟩ := qsepChar_elim (h c (List.mem_cons_self c cs))
    rw [List.cons_append, parseQPAux]
    simp only [ha, he, hq, hh, if_false]
    rw [ih (c :: acc) (fun x hx => h x (List.mem_cons_of_mem c hx))]
    simp [List.append_assoc]

theorem parseQPAux_value_end (vs k acc : List Char) (h : ∀ c ∈ vs, c ≠ '&') :
    parseQPAux vs (.inValue k acc) = [(⟨k.reverse⟩, ⟨acc.reverse ++ vs⟩)] := by
  induction vs generalizing acc with
  | nil => simp [parseQPAux]
  | cons c cs ih =>
    have hc : ¬ c = '&' := h c (List.mem_cons_self c cs)
    rw [parseQPAux]
    simp only [hc, if_false]
    rw [ih (c :: acc) (fun x hx => h x (List.mem_cons_of_mem c hx))]
    simp

theorem parseQPAux_value_amp (vs k acc rest : List Char) (h : ∀ c ∈ vs, c ≠ '&') :
    parseQPAux (vs ++ '&' :: rest) (.inValue k acc)
      = (⟨k.reverse⟩, ⟨acc.reverse ++ vs⟩) :: parseQPAux rest .seeking := by
  induction vs generalizing acc with
  | nil => simp [parseQPAux]
  | cons c cs ih =>
    have hc : ¬ c = '&' := h c (List.mem_cons_self c cs)
    rw [List.cons_append, parseQPAux]
    simp only [hc, if_false]
    rw [ih (c :: acc) (fun x hx => h x (List.mem_cons_of_mem c hx))]
    simp

theorem okValue_no_amp {v : String} (hv : okValue v) : ∀ c ∈ v.data, c ≠ '&' :=
  fun c hc => (hv c hc).1

theorem parseQPAux_queryChars (q : List (String × String))
    (h : ∀ kv ∈ q, noSepKey kv.1 ∧ okValue kv.2) :
    parseQPAux (queryChars q) .seeking = q := by
  induction q with
  | nil => rfl
  | cons kv kvs ih =>
    obtain ⟨⟨hk0, hk⟩, hv⟩ := h kv (List.mem_cons_self kv kvs)
    obtain ⟨k0, ks, hkd⟩ : ∃ k0 ks, kv.1.data = k0 :: ks := by
      cases hc : kv.1.data with
      | nil => exact absurd hc hk0
      | cons a b => exact ⟨a, b, rfl⟩
    have h0 : qsepChar k0 = false := hk k0 (hkd ▸ List.mem_cons_self k0 ks)
    obtain ⟨he0, hq0, hh0, ha0⟩ := qsepChar_elim h0
    have hks : ∀ c ∈ ks, qsepChar c = false :=
      fun c hc => hk c (hkd ▸ List.mem_cons_of_mem k0 hc)
    have hrevks : (ks.reverse ++ [k0]).reverse = kv.1.data := by
      rw [List.reverse_append, List.reverse_reverse, List.reverse_singleton,
        List.singleton_append, hkd]
    cases kvs with
    | nil =>
      rw [queryChars, pairChars, hkd, List.cons_append]
      simp only [parseQPAux]
      rw [h0, if_neg Bool.false_ne_true]
      rw [parseQPAux_key ks kv.2.data [k0] hks]
      rw [parseQPAux_value_end kv.2.data _ [] (okValue_no_amp hv)]
      try simp only [List.reverse_nil, List.nil_append]
      try rw [hrevks]
      try simp
    | cons kv2 kvs' =>
      rw [queryChars, pairChars, hkd]
      rw [show (k0 :: ks) ++ '=' :: kv.2.data ++ '&' :: queryChars (kv2 :: kvs')
          = k0 :: (ks ++ '=' :: (kv.2.data ++ '&' :: queryChars (kv2 :: kvs'))) by
        simp [List.append_assoc]]
      simp only [parseQPAux]
      rw [h0, if_neg Bool.false_ne_true]
      rw [parseQPAux_key ks _ [k0] hks]
      rw [parseQPAux_value_amp kv.2.data _ [] (queryChars (kv2 :: kvs'))
        (okValue_no_amp hv)]
      rw [ih (fun x hx => h x (List.mem_cons_of_mem kv hx))]
      try simp only [List.reverse_nil, List.nil_append]
      try rw [hrevks]
      try simp

theorem keysNodup_perm {l l' : List (String × String)} (h : l.Perm l') :
    keysNodup l ↔ keysNodup l' :=
  (h.map Prod.fst).nodup_iff

theorem sortedQueryObject_perm (l : List (String × String)) :
    (sortedQueryObject l).Perm l :=
  (jsObjOrder_perm (sortPairsByKey l)).trans (sortPairsByKey_perm l)

/-- Rebuilding the sorted query object a second time changes nothing, as long
as the keys are duplicate-free. -/
theorem sortedQueryObject_idem (l : List (String × String)) (hnd : keysNodup l) :
    sortedQueryObject (sortedQueryObject l) = sortedQueryObject l := by
  have hm : List.Sorted keyLE (sortPairsByKey l) := List.sorted_insertionSort keyLE l
  have hperm : (sortPairsByKey (sortedQueryObject l)).Perm (sortPairsByKey l) :=
    (sortPairsByKey_perm _).trans ((sortedQueryObject_perm l).trans
      (sortPairsByKey_perm l).symm)
  have hnd' : keysNodup (sortPairsByKey (sortedQueryObject l)) :=
    (keysNodup_perm (hperm.trans (sortPairsByKey_perm l))).mpr hnd
  have hsorted' : List.Sorted keyLE (sortPairsByKey (sortedQueryObject l)) :=
    List.sorted_insertionSort keyLE _
  have heq : sortPairsByKey (sortedQueryObject l) = sortPairsByKey l :=
    sorted_perm_keysNodup_eq hperm hsorted' hm hnd'
  rw [sortedQueryObject, heq, sortedQueryObject]

/-- The second `jsObjOrder` pass applied by a re-parse of the serialized
query is the identity on a sorted query object. -/
theorem jsObjOrder_sortedQueryObject (l : List (String × String)) :
    jsObjOrder (sortedQueryObject l) = sortedQueryObject l := by
  rw [sortedQueryObject, jsObjOrder_idem]

theorem parseQPAux_props (l : List Char) :
    ∀ (st : QPState), (∀ c ∈ l, c ≠ '#') → QPStateOK st →
      ∀ kv ∈ parseQPAux l st, noSepKey kv.1 ∧ okValue kv.2 := by
  induction l with
  | nil =>
    intro st _ hst kv hkv
    cases st with
    | seeking => simp [parseQPAux] at hkv
    | inKey k =>
      obtain ⟨hk0, hkc⟩ := hst
      simp [parseQPAux] at hkv
      subst hkv
      refine ⟨⟨by simpa using hk0, ?_⟩, ?_⟩
      · intro c hc; exact hkc c (List.mem_reverse.mp hc)
      · intro c hc; simp at hc
    | inValue k v =>
      obtain ⟨hk0, hkc, hvc⟩ := hst
      simp [parseQPAux] at hkv
      subst hkv
      refine ⟨⟨by simpa using hk0, ?_⟩, ?_⟩
      · intro c hc; exact hkc c (List.mem_reverse.mp hc)
      · intro c hc; exact hvc c (List.mem_reverse.mp hc)
  | cons c cs ih =>
    intro st hl hst kv hkv
    have hl' : ∀ x ∈ cs, x ≠ '#' := fun x hx => hl x (List.mem_cons_of_mem c hx)
    have hch : ¬ c = '#' := hl c (List.mem_cons_self c cs)
    cases st with
    | seeking =>
      rw [parseQPAux] at hkv
      by_cases hq : qsepChar c = true
      · rw [if_pos hq] at hkv
        exact ih .seeking hl' trivial kv hkv
      · rw [if_neg hq] at hkv
        refine ih (.inKey [c]) hl' ⟨by simp, ?_⟩ kv hkv
        intro x hx
        rcases List.mem_singleton.mp hx with rfl
        exact Bool.not_eq_true _ ▸ (by simpa using hq)
    | inKey k =>
      obtain ⟨hk0, hkc⟩ := hst
      rw [parseQPAux] at hkv
      by_cases ha : c = '&'
      · rw [if_pos ha] at hkv
        rcases List.mem_cons.mp hkv with rfl | hkv
        · refine ⟨⟨by simpa using hk0, ?_⟩, ?_⟩
          · intro x hx; exact hkc x (List.mem_reverse.mp hx)
          · intro x hx; simp at hx
        · exact ih .seeking hl' trivial kv hkv
      · rw [if_neg ha] at hkv
        by_cases he : c = '='
        · rw [if_pos he] at hkv
          refine ih (.inValue k []) hl' ⟨hk0, hkc, ?_⟩ kv hkv
          intro x hx; simp at hx
        · rw [if_neg he] at hkv
          by_cases hqh : c = '?' ∨ c = '#'
          · have hq' : (c = '?' || c = '#') = true := by
              rcases hqh with h | h <;> simp [h]
            rw [if_pos hq'] at hkv
            refine ih (.inValue k [c]) hl' ⟨hk0, hkc, ?_⟩ kv hkv
            intro x hx
            rcases List.mem_singleton.mp hx with rfl
            exact ⟨ha, hch⟩
          · have hq' : ¬ (c = '?' || c = '#') = true := by
              simp only [Bool.or_eq_true, decide_eq_true_eq]
              push_neg
              exact ⟨fun h => hqh (Or.inl h), fun h => hqh (Or.inr h)⟩
            rw [if_neg hq'] at hkv
            refine ih (.inKey (c :: k)) hl' ⟨by simp, ?_⟩ kv hkv
            intro x hx
            rcases List.mem_cons.mp hx with rfl | hx
            · simp [qsepChar, he, ha, hch]
              intro h; exact hqh (Or.inl h)
            · exact hkc x hx
    | inValue k v =>
      obtain ⟨hk0, hkc, hvc⟩ := hst
      rw [parseQPAux] at hkv
      by_cases ha : c = '&'
      · rw [if_pos ha] at hkv
        rcases List.mem_cons.mp hkv with rfl | hkv
        · refine ⟨⟨by simpa using hk0, ?_⟩, ?_⟩
          · intro x hx; exact hkc x (List.mem_reverse.mp hx)
          · intro x hx; exact hvc x (List.mem_reverse.mp hx)
        · exact ih .seeking hl' trivial kv hkv
      · rw [if_neg ha] at hkv
        refine ih (.inValue k (c :: v)) hl' ⟨hk0, hkc, ?_⟩ kv hkv
        intro x hx
        rcases List.mem_cons.mp hx with rfl | hx
        · exact ⟨ha, hch⟩
        · exact hvc x hx

theorem mem_dedupKeys {kv : String × String} {l : List (String × String)}
    (h : kv ∈ dedupKeys l) : kv ∈ l :=
  (dedupKeysAux_sublist [] l).subset h

theorem parseQuery_props (l : List Char) (hl : ∀ c ∈ l, c ≠ '#') :
    ∀ kv ∈ parseQuery l, noSepKey kv.1 ∧ okValue kv.2 := by
  intro kv hkv
  have h1 : kv ∈ dedupKeys (parseQPAux l .seeking) :=
    (jsObjOrder_perm _).mem_iff.mp hkv
  exact parseQPAux_props l .seeking hl trivial kv (mem_dedupKeys h1)

theorem parseQuery_keysNodup (l : List Char) : keysNodup (parseQuery l) :=
  (keysNodup_perm (jsObjOrder_perm _)).mpr (dedupKeys_keysNodup _)

/-! ### Helper lemmas: lowercasing and the scheme shape -/

theorem lowerChar_toNat_of_upper {c : Char} (h : 65 ≤ c.toNat ∧ c.toNat ≤ 90) :
    (lowerChar c).toNat = c.toNat + 32 := by
  rw [lowerChar, if_pos h]
  unfold Char.ofNat
  rw [dif_pos (by constructor; omega)]
  rfl

theorem lowerChar_eq_of_not_upper {c : Char} (h : ¬ (65 ≤ c.toNat ∧ c.toNat ≤ 90)) :
    lowerChar c = c := by
  rw [lowerChar, if_neg h]

theorem lowerChar_idem (c : Char) : lowerChar (lowerChar c) = lowerChar c := by
  by_cases h : 65 ≤ c.toNat ∧ c.toNat ≤ 90
  · have h1 := lowerChar_toNat_of_upper h
    refine lowerChar_eq_of_not_upper ?_
    intro hcon
    omega
  · rw [lowerChar_eq_of_not_upper h, lowerChar_eq_of_not_upper h]

theorem lowerChars_idem (l : List Char) : lowerChars (lowerChars l) = lowerChars l := by
  rw [lowerChars, lowerChars, List.map_map]
  exact List.map_congr_left (fun a _ => lowerChar_idem a)

theorem schemeAlpha_lower {c : Char} (h : schemeAlpha c = true) :
    schemeAlpha (lowerChar c) = true := by
  by_cases hu : 65 ≤ c.toNat ∧ c.toNat ≤ 90
  · have h1 := lowerChar_toNat_of_upper hu
    simp only [schemeAlpha, Bool.or_eq_true, Bool.and_eq_true, decide_eq_true_eq]
    right
    omega
  · rw [lowerChar_eq_of_not_upper hu]
    exact h

theorem schemeTail_lower {c : Char} (h : schemeTail c = true) :
    schemeTail (lowerChar c) = true := by
  by_cases hu : 65 ≤ c.toNat ∧ c.toNat ≤ 90
  · have h1 := lowerChar_toNat_of_upper hu
    have h2 : schemeAlpha (lowerChar c) = true := by
      simp only [schemeAlpha, Bool.or_eq_true, Bool.and_eq_true, decide_eq_true_eq]
      right
      omega
    simp [schemeTail, h2]
  · rw [lowerChar_eq_of_not_upper hu]
    exact h

theorem validSchemeChars_lower {l : List Char} (h : validSchemeChars l = true) :
    validSchemeChars (lowerChars l) = true := by
  cases l with
  | nil => simp [validSchemeChars] at h
  | cons c cs =>
    simp only [validSchemeChars, lowerChars, List.map_cons, Bool.and_eq_true,
      List.all_eq_true] at h ⊢
    refine ⟨schemeAlpha_lower h.1, ?_⟩
    intro x hx
    obtain ⟨y, hy, rfl⟩ := List.mem_map.mp hx
    exact schemeTail_lower (h.2 y hy)

theorem scheme_no_colon {l : List Char} (h : validSchemeChars l = true) :
    ∀ c ∈ l, c ≠ ':' := by
  cases l with
  | nil => intro c hc; simp at hc
  | cons a cs =>
    simp only [validSchemeChars, Bool.and_eq_true, List.all_eq_true] at h
    intro c hc he
    subst he
    rcases List.mem_cons.mp hc with he | hc
    · rw [← he] at h
      exact absurd h.1 (by decide)
    · exact absurd (h.2 _ hc) (by decide)

theorem authEnd_lower {c : Char} (h : authEnd c = false) :
    authEnd (lowerChar c) = false := by
  by_cases hu : 65 ≤ c.toNat ∧ c.toNat ≤ 90
  · have h1 := lowerChar_toNat_of_upper hu
    simp only [authEnd, Bool.or_eq_false_iff, decide_eq_false_iff_not]
    refine ⟨⟨?_, ?_⟩, ?_⟩ <;> intro he
    · have hv := congrArg Char.toNat he
      have k1 : ('/' : Char).toNat = 47 := rfl
      omega
    · have hv := congrArg Char.toNat he
      have k2 : ('?' : Char).toNat = 63 := rfl
      omega
    · have hv := congrArg Char.toNat he
      have k3 : ('#' : Char).toNat = 35 := rfl
      omega
  · rw [lowerChar_eq_of_not_upper hu]
    exact h

theorem breakAtChar_cons (ch c : Char) (rest : List Char) :
    breakAtChar ch (c :: rest)
      = if c = ch then ([], some rest)
        else (c :: (breakAtChar ch rest).1, (breakAtChar ch rest).2) := by
  by_cases h : c = ch <;> simp [breakAtChar, h]

theorem slashSlash_some {rest rest2 : List Char} (h : slashSlash rest = some rest2) :
    rest = '/' :: '/' :: rest2 := by
  cases rest with
  | nil => simp [slashSlash] at h
  | cons a rest1 =>
    cases rest1 with
    | nil => simp [slashSlash] at h
    | cons b rest' =>
      rw [slashSlash] at h
      by_cases hab : a = '/' ∧ b = '/'
      · rw [if_pos hab] at h
        obtain ⟨rfl, rfl⟩ := hab
        rw [Option.some_inj.mp h]
      · rw [if_neg hab] at h
        simp at h

/-! ### Parser invariants -/

theorem parseAfterScheme_WF {schemeRaw rest2 : List Char} {p : ParsedURL}
    (hvs : validSchemeChars schemeRaw = true)
    (h : parseAfterScheme schemeRaw rest2 = some p) :
    validSchemeChars p.protocol.data = true ∧
    lowerChars p.protocol.data = p.protocol.data ∧
    p.host.data ≠ [] ∧
    (∀ c ∈ p.host.data, authEnd c = false) ∧
    lowerChars p.host.data = p.host.data ∧
    (p.pathname.data = [] ∨ ∃ t, p.pathname.data = '/' :: t) ∧
    (∀ c ∈ p.pathname.data, c ≠ '?' ∧ c ≠ '#') ∧
    (∀ kv ∈ p.query, noSepKey kv.1 ∧ okValue kv.2) ∧
    keysNodup p.query := by
  rw [parseAfterScheme] at h
  rcases hsp : spanUntil authEnd rest2 with ⟨hostRaw, tail⟩
  rw [hsp] at h
  dsimp only at h
  by_cases hemp : hostRaw.isEmpty
  · rw [if_pos hemp] at h; simp at h
  · rw [if_neg hemp] at h
    rcases hbh : breakAtChar '#' tail with ⟨beforeHash, hashPart?⟩
    rw [hbh] at h
    dsimp only at h
    rcases hbq : breakAtChar '?' beforeHash with ⟨pathRaw, queryPart?⟩
    rw [hbq] at h
    dsimp only at h
    rw [Option.some_inj] at h
    subst h
    have hostNe : hostRaw ≠ [] := by
      intro hc; exact hemp (by rw [hc]; rfl)
    have hostAE : ∀ c ∈ hostRaw, authEnd c = false := by
      have h' := spanUntil_fst_false authEnd rest2
      rw [hsp] at h'
      exact h'
    have hpathNoQ : ∀ c ∈ pathRaw, c ≠ '?' := by
      have h' := breakAtChar_fst_ne '?' beforeHash
      rw [hbq] at h'
      exact h'
    have hpathMem : ∀ c ∈ pathRaw, c ∈ beforeHash := by
      have h' := breakAtChar_fst_mem '?' beforeHash
      rw [hbq] at h'
      exact h'
    have hbhNoHash : ∀ c ∈ beforeHash, c ≠ '#' := by
      have h' := breakAtChar_fst_ne '#' tail
      rw [hbh] at h'
      exact h'
    refine ⟨validSchemeChars_lower hvs, lowerChars_idem _, ?_, ?_, lowerChars_idem _,
      ?_, ?_, ?_, parseQuery_keysNodup _⟩
    · simpa [lowerChars] using hostNe
    · intro c hc
      obtain ⟨y, hy, rfl⟩ := List.mem_map.mp hc
      exact authEnd_lower (hostAE y hy)
    · -- pathname is [] or starts with '/'
      have hth := spanUntil_snd_head authEnd rest2
      rw [hsp] at hth
      rcases hth with htail | ⟨t0, ts, htail, ht0⟩
      · simp only at htail
        subst htail
        rw [show breakAtChar '#' ([] : List Char) = ([], none) from rfl] at hbh
        injection hbh with hb1 hb2
        rw [← hb1] at hbq
        rw [show breakAtChar '?' ([] : List Char) = ([], none) from rfl] at hbq
        injection hbq with hq1 hq2
        left
        exact hq1.symm
      · simp only at htail
        subst htail
        have ht0' : t0 = '/' ∨ t0 = '?' ∨ t0 = '#' := by
          have h' := ht0
          simp only [authEnd, Bool.or_eq_true, decide_eq_true_eq, or_assoc] at h'
          exact h'
        rcases ht0' with rfl | rfl | rfl
        · rw [breakAtChar_cons '#' '/' ts, if_neg (by decide)] at hbh
          injection hbh with hb1 hb2
          rw [← hb1] at hbq
          rw [breakAtChar_cons '?' '/' _, if_neg (by decide)] at hbq
          injection hbq with hq1 hq2
          right
          exact ⟨_, hq1.symm⟩
        · rw [breakAtChar_cons '#' '?' ts, if_neg (by decide)] at hbh
          injection hbh with hb1 hb2
          rw [← hb1] at hbq
          rw [breakAtChar_cons '?' '?' _, if_pos rfl] at hbq
          injection hbq with hq1 hq2
          left
          exact hq1.symm
        · rw [breakAtChar_cons '#' '#' ts, if_pos rfl] at hbh
          injection hbh with hb1 hb2
          rw [← hb1] at hbq
          rw [show breakAtChar '?' ([] : List Char) = ([], none) from rfl] at hbq
          injection hbq with hq1 hq2
          left
          exact hq1.symm
    · intro c hc
      exact ⟨hpathNoQ c hc, hbhNoHash c (hpathMem c hc)⟩
    · -- query pairs are well-formed
      cases queryPart? with
      | none =>
        intro kv hkv
        rw [show parseQuery (Option.getD none []) = [] from rfl] at hkv
        simp at hkv
      | some qp =>
        intro kv hkv
        refine parseQuery_props qp ?_ kv hkv
        intro c hc
        have hqmem : ∀ c ∈ qp, c ∈ beforeHash := by
          have h' := breakAtChar_snd_mem '?' beforeHash
          rw [hbq] at h'
          exact h' qp rfl
        exact hbhNoHash c (hqmem c hc)

theorem parseChars_WF {l : List Char} {p : ParsedURL} (h : parseChars l = some p) :
    validSchemeChars p.protocol.data = true ∧
    lowerChars p.protocol.data = p.protocol.data ∧
    p.host.data ≠ [] ∧
    (∀ c ∈ p.host.data, authEnd c = false) ∧
    lowerChars p.host.data = p.host.data ∧
    (p.pathname.data = [] ∨ ∃ t, p.pathname.data = '/' :: t) ∧
    (∀ c ∈ p.pathname.data, c ≠ '?' ∧ c ≠ '#') ∧
    (∀ kv ∈ p.query, noSepKey kv.1 ∧ okValue kv.2) ∧
    keysNodup p.query := by
  rw [parseChars] at h
  rcases hbr : breakAtChar ':' l with ⟨schemeRaw, rest?⟩
  rw [hbr] at h
  dsimp only at h
  cases rest? with
  | none => simp at h
  | some rest =>
    dsimp only at h
    by_cases hvs : validSchemeChars schemeRaw = true
    · rw [if_pos hvs] at h
      cases hss : slashSlash rest with
      | none => rw [hss] at h; simp at h
      | some rest2 =>
        rw [hss] at h
        exact parseAfterScheme_WF hvs h
    · rw [if_neg hvs] at h
      simp at h

/-! ### The serialize-then-parse round trip -/

theorem queryChars_no_hash (q : List (String × String))
    (h : ∀ kv ∈ q, noSepKey kv.1 ∧ okValue kv.2) :
    ∀ c ∈ queryChars q, c ≠ '#' := by
  induction q with
  | nil => intro c hc; simp [queryChars] at hc
  | cons kv kvs ih =>
    obtain ⟨⟨-, hk⟩, hv⟩ := h kv (List.mem_cons_self kv kvs)
    have hpair : ∀ c ∈ pairChars kv, c ≠ '#' := by
      intro c hc
      rw [pairChars] at hc
      rcases List.mem_append.mp hc with hc | hc
      · exact (qsepChar_elim (hk c hc)).2.2.1
      · rcases List.mem_cons.mp hc with rfl | hc
        · decide
        · exact (hv c hc).2
    intro c hc
    cases kvs with
    | nil => exact hpair c hc
    | cons kv2 kvs' =>
      rw [queryChars] at hc
      rcases List.mem_append.mp hc with hc | hc
      · exact hpair c hc
      · rcases List.mem_cons.mp hc with rfl | hc
        · decide
        · exact ih (fun x hx => h x (List.mem_cons_of_mem kv hx)) c hc

theorem serializeURL_roundtrip (p : ParsedURL) (h : WFParsed p)
    (hk : keysNodup p.query) (hfix : jsObjOrder p.query = p.query) :
    parseURL (serializeURL p) = some p := by
  obtain ⟨hscheme, hlowp, hhost0, hhostE, hlowh, hpath, hpathC, hq, hfrag⟩ := h
  rw [parseURL, serializeURL]
  dsimp only
  rw [if_pos hfrag, List.append_nil]
  rw [parseChars]
  simp only [List.cons_append, List.append_assoc]
  have hb := breakAtChar_append ':' p.protocol.data
    ('/' :: '/' :: (p.host.data ++ (p.pathname.data ++ serializeQuery p.query)))
    (scheme_no_colon hscheme)
  rw [hb]
  dsimp only
  rw [if_pos hscheme]
  rw [show slashSlash ('/' :: '/' ::
      (p.host.data ++ (p.pathname.data ++ serializeQuery p.query)))
    = some (p.host.data ++ (p.pathname.data ++ serializeQuery p.query)) from by
      simp [slashSlash]]
  dsimp only
  unfold parseAfterScheme
  have hheads : ∀ c t, (p.pathname.data ++ serializeQuery p.query) = c :: t →
      authEnd c = true := by
    intro c t heq
    rcases hpath with hp0 | ⟨pt, hpt⟩
    · rw [hp0, List.nil_append] at heq
      cases hq0 : p.query with
      | nil => rw [hq0] at heq; simp [serializeQuery] at heq
      | cons q0 qs =>
        rw [hq0] at heq
        rw [show serializeQuery (q0 :: qs) = '?' :: queryChars (q0 :: qs) from rfl] at heq
        injection heq with h1 _
        rw [← h1]
        decide
    · rw [hpt, List.cons_append] at heq
      injection heq with h1 _
      rw [← h1]
      decide
  rw [spanUntil_append authEnd p.host.data _ hhostE hheads]
  dsimp only
  rw [if_neg (by simpa using hhost0)]
  have hnoHash : ∀ c ∈ (p.pathname.data ++ serializeQuery p.query), c ≠ '#' := by
    intro c hc
    rcases List.mem_append.mp hc with hc | hc
    · exact (hpathC c hc).2
    · cases hq0 : p.query with
      | nil => rw [hq0] at hc; simp [serializeQuery] at hc
      | cons q0 qs =>
        rw [hq0] at hc
        rw [show serializeQuery (q0 :: qs) = '?' :: queryChars (q0 :: qs) from rfl] at hc
        rcases List.mem_cons.mp hc with rfl | hc
        · decide
        · exact queryChars_no_hash _ (fun kv hkv => hq kv (hq0 ▸ hkv)) c hc
  rw [breakAtChar_none_of '#' _ hnoHash]
  dsimp only
  have hpathNoQ : ∀ c ∈ p.pathname.data, c ≠ '?' := fun c hc => (hpathC c hc).1
  cases hq0 : p.query with
  | nil =>
    rw [show serializeQuery ([] : List (String × String)) = [] from rfl, List.append_nil]
    rw [breakAtChar_none_of '?' _ hpathNoQ]
    rw [hlowp, hlowh, Option.some_inj]
    cases p with
    | mk pr ho pa qu fr =>
      dsimp only at hq0 hfrag ⊢
      rw [hq0, hfrag]
      rfl
  | cons q0 qs =>
    rw [show serializeQuery (q0 :: qs) = '?' :: queryChars (q0 :: qs) from rfl]
    rw [breakAtChar_append '?' p.pathname.data _ hpathNoQ]
    have hk' : keysNodup (q0 :: qs) := hq0 ▸ hk
    have hfix' : jsObjOrder (q0 :: qs) = q0 :: qs := hq0 ▸ hfix
    have hqq : parseQuery (queryChars (q0 :: qs)) = q0 :: qs := by
      rw [parseQuery,
        parseQPAux_queryChars (q0 :: qs) (fun kv hkv => hq kv (by rw [hq0]; exact hkv)),
        dedupKeys_eq_self _ hk', hfix']
    rw [show ((p.pathname.data, some (queryChars (q0 :: qs))).2.getD []) =
      queryChars (q0 :: qs) from rfl]
    rw [hqq, hlowp, hlowh, Option.some_inj]
    cases p with
    | mk pr ho pa qu fr =>
      dsimp only at hq0 hfrag ⊢
      rw [hq0, hfrag]
      rfl

/-! ### Trailing-slash stripping -/

theorem strip_of_rev_eq {s : String} {c : Char} {rest : List Char}
    (h : s.data.reverse = '/' :: c :: rest) :
    stripTrailingSlash s = ⟨(c :: rest).reverse⟩ := by
  rw [stripTrailingSlash]
  split
  · next c' rest' heq =>
    have h2 := h.symm.trans heq
    injection h2 with _ h2
    injection h2 with h2 h3
    rw [h2, h3]
  · next hne => exact absurd h (hne c rest)

theorem strip_of_rev_ne {s : String}
    (h : ∀ c rest, s.data.reverse ≠ '/' :: c :: rest) :
    stripTrailingSlash s = s := by
  rw [stripTrailingSlash]
  split
  · next c rest heq => exact absurd heq (h c rest)
  · rfl

theorem stripTrailingSlash_mem (s : String) :
    ∀ x ∈ (stripTrailingSlash s).data, x ∈ s.data := by
  intro x hx
  by_cases hform : ∃ c rest, s.data.reverse = '/' :: c :: rest
  · obtain ⟨c, rest, hrev⟩ := hform
    rw [strip_of_rev_eq hrev] at hx
    have hx2 : x ∈ c :: rest := List.mem_reverse.mp hx
    have : x ∈ s.data.reverse := by
      rw [hrev]
      exact List.mem_cons_of_mem _ hx2
    exact List.mem_reverse.mp this
  · push_neg at hform
    rw [strip_of_rev_ne hform] at hx
    exact hx

theorem stripTrailingSlash_start (s : String)
    (h : s.data = [] ∨ ∃ t, s.data = '/' :: t) :
    (stripTrailingSlash s).data = [] ∨ ∃ t, (stripTrailingSlash s).data = '/' :: t := by
  by_cases hform : ∃ c rest, s.data.reverse = '/' :: c :: rest
  · obtain ⟨c, rest, hrev⟩ := hform
    rw [strip_of_rev_eq hrev]
    obtain ⟨d, ds, hd⟩ : ∃ d ds, (c :: rest).reverse = d :: ds := by
      cases hcc : (c :: rest).reverse with
      | nil => exact absurd hcc (by simp)
      | cons d ds => exact ⟨d, ds, rfl⟩
    have hsd : s.data = d :: (ds ++ ['/']) := by
      have h1 : s.data = s.data.reverse.reverse := (List.reverse_reverse _).symm
      rw [h1, hrev, List.reverse_cons, hd]
      rfl
    have hdslash : d = '/' := by
      rcases h with h0 | ⟨t, ht⟩
      · rw [h0] at hsd; cases hsd
      · rw [ht] at hsd
        injection hsd with h1 _
        exact h1.symm
    right
    exact ⟨ds, by rw [hd, hdslash]⟩
  · push_neg at hform
    rw [strip_of_rev_ne hform]
    exact h

theorem stripTrailingSlash_idem (s : String) (hds : endsDoubleSlash s = false) :
    stripTrailingSlash (stripTrailingSlash s) = stripTrailingSlash s := by
  by_cases hform : ∃ c rest, s.data.reverse = '/' :: c :: rest
  · obtain ⟨c, rest, hrev⟩ := hform
    have hc : c ≠ '/' := by
      intro hc
      subst hc
      have : endsDoubleSlash s = true := by
        rw [endsDoubleSlash, hrev]
        rfl
      rw [this] at hds
      cases hds
    have e1 := strip_of_rev_eq hrev
    have e2 : stripTrailingSlash ⟨(c :: rest).reverse⟩ = ⟨(c :: rest).reverse⟩ := by
      refine strip_of_rev_ne ?_
      intro c' rest' hcon
      rw [show (⟨(c :: rest).reverse⟩ : String).data = (c :: rest).reverse from rfl,
        List.reverse_reverse] at hcon
      injection hcon with h1 _
      exact hc h1
    rw [e1, e2]
  · push_neg at hform
    have e := strip_of_rev_ne hform
    rw [e, e]

theorem enqueuesOf_append (a b : List CrawlStep) :
    enqueuesOf (a ++ b) = enqueuesOf a ++ enqueuesOf b :=
  List.filterMap_append a b _

theorem enqueuesOf_mapEnqueue (us : List String) (d : Nat) :
    enqueuesOf (us.map (fun u => CrawlStep.enqueue u d)) = us.map (fun u => (u, d)) := by
  induction us with
  | nil => rfl
  | cons a as ih => simpa [enqueuesOf, List.filterMap_cons] using ih

/-- C9. If the `crawled_pages` record for the URL is within the 24 h recency
window, `crawlURL` returns the successful skipped result `{success: true,
skipped: true}` immediately after the recency query: the trace contains no
robots check, no rate-limiter wait and no fetch. -/
theorem recentlyCrawled_skips_without_side_effects
    (env : CrawlEnv) (depth maxDepth : Nat) (domainFilter : List String)
    (h : env.recentlyCrawled = true) :
    crawlURL env depth maxDepth domainFilter
      = (⟨true, true, none⟩, [.recencyCheck]) ∧
    CrawlStep.robotsCheck ∉ (crawlURL env depth maxDepth domainFilter).2 ∧
    CrawlStep.rateWait ∉ (crawlURL env depth maxDepth domainFilter).2 ∧
    CrawlStep.fetchCall ∉ (crawlURL env depth maxDepth domainFilter).2 := by
  have he : crawlURL env depth maxDepth domainFilter
      = (⟨true, true, none⟩, [.recencyCheck]) := by
    simp [crawlURL, h]
  rw [he]
  refine ⟨rfl, ?_, ?_, ?_⟩ <;> decide

/-- C9, witness: a recently crawled URL in a concrete environment. -/
theorem recentlyCrawled_skips_without_side_effects_witness :
    crawlURL ⟨true, true, 1, .err "unused", none, none, none, []⟩ 0 3 []
      = (⟨true, true, none⟩, [.recencyCheck]) ∧
    CrawlStep.robotsCheck ∉ (crawlURL ⟨true, true, 1, .err "unused", none, none, none, []⟩ 0 3 []).2 ∧
    CrawlStep.rateWait ∉ (crawlURL ⟨true, true, 1, .err "unused", none, none, none, []⟩ 0 3 []).2 ∧
    CrawlStep.fetchCall ∉ (crawlURL ⟨true, true, 1, .err "unused", none, none, none, []⟩ 0 3 []).2 :=
  recentlyCrawled_skips_without_side_effects
    ⟨true, true, 1, .err "unused", none, none, none, []⟩ 0 3 [] rfl

/-- C6, counterexample. The claim states that a step 4-8 exception is
re-thrown to the job queue and not swallowed into a plain failure result.
With a save step that throws "db write failed", the handler returns
`Except.ok {success: false, reason: "db write failed"}` — a plain failure
result, not a re-thrown exception — after `crawlURL`'s own catch marked the
URL failed. -/
theorem crawl_exception_swallowed_counterexample :
    processCrawlJob ⟨false, true, 1, .ok ⟨"<html></html>", "text/html", 200, none⟩,
        some ⟨"T", "body", "text/html", 1, "h", some []⟩, some "db write failed", none, []⟩
        0 3 []
      = Except.ok ⟨false, false, some "db write failed"⟩ ∧
    CrawlStep.markProcessed false (some "db write failed")
      ∈ (crawlURL ⟨false, true, 1, .ok ⟨"<html></html>", "text/html", 200, none⟩,
          some ⟨"T", "body", "text/html", 1, "h", some []⟩, some "db write failed", none, []⟩
          0 3 []).2 := by
  exact ⟨rfl, by decide⟩

/-- C6, amended. When a step 4-8 operation raises an exception (modelled
here for the save step), `crawlURL`'s catch marks the URL failed with the
exception message — but then RETURNS a plain `{success: false, error}`
result instead of re-throwing, so the handler `processCrawlJob` completes
with `Except.ok` and the job queue's retry policy never sees the
exception. -/
theorem crawl_exception_marks_failed_but_not_rethrown
    (env : CrawlEnv) (depth maxDepth : Nat) (domainFilter : List String) (msg : String)
    (hrec : env.recentlyCrawled = false)
    (hrob : env.robotsAllowed = true)
    (hfetch : env.fetchResult.success = true)
    (hext : env.extracted.isSome = true)
    (hsave : env.saveError = some msg) :
    (crawlURL env depth maxDepth domainFilter).1 = ⟨false, false, some msg⟩ ∧
    CrawlStep.markProcessed false (some msg)
      ∈ (crawlURL env depth maxDepth domainFilter).2 ∧
    processCrawlJob env depth maxDepth domainFilter
      = Except.ok ⟨false, false, some msg⟩ := by
  obtain ⟨r, hr⟩ : ∃ r, env.fetchResult = .ok r := by
    cases hf : env.fetchResult with
    | ok r => exact ⟨r, rfl⟩
    | err m => rw [hf] at hfetch; exact absurd hfetch (by simp [FetchResult.success])
  obtain ⟨e, he⟩ := Option.isSome_iff_exists.mp hext
  have hc : crawlURL env depth maxDepth domainFilter
      = (⟨false, false, some msg⟩,
         [.recencyCheck, .robotsCheck, .setDelay (env.robotsDelay * 1000), .rateWait,
          .fetchCall, .extractCall, .saveCall, .markProcessed false (some msg)]) := by
    simp [crawlURL, hrec, hrob, hr, he, hsave]
  rw [processCrawlJob, hc]
  refine ⟨rfl, ?_, rfl⟩
  simp

/-- C6, witness: the amended theorem at a concrete environment whose index
step throws is not needed — the save step throwing "disk full" suffices. -/
theorem crawl_exception_marks_failed_but_not_rethrown_witness :
    (crawlURL ⟨false, true, 2, .ok ⟨"<p>x</p>", "text/html", 200, none⟩,
        some ⟨"T", "x", "text/html", 1, "h", some []⟩, some "disk full", none, []⟩
        1 5 []).1 = ⟨false, false, some "disk full"⟩ ∧
    CrawlStep.markProcessed false (some "disk full")
      ∈ (crawlURL ⟨false, true, 2, .ok ⟨"<p>x</p>", "text/html", 200, none⟩,
          some ⟨"T", "x", "text/html", 1, "h", some []⟩, some "disk full", none, []⟩
          1 5 []).2 ∧
    processCrawlJob ⟨false, true, 2, .ok ⟨"<p>x</p>", "text/html", 200, none⟩,
        some ⟨"T", "x", "text/html", 1, "h", some []⟩, some "disk full", none, []⟩
        1 5 []
      = Except.ok ⟨false, false, some "disk full"⟩ :=
  crawl_exception_marks_failed_but_not_rethrown
    ⟨false, true, 2, .ok ⟨"<p>x</p>", "text/html", 200, none⟩,
      some ⟨"T", "x", "text/html", 1, "h", some []⟩, some "disk full", none, []⟩
    1 5 [] "disk full" rfl rfl rfl rfl rfl

/-- C3, counterexample. The claim states that with a job's `maxDepth = 1` no
link discovered from a depth-1 page is ever enqueued.  On the code: the seed
crawl (depth 0, maxDepth 1) enqueues its extracted link at depth 1; the
frontier pump then re-dispatches that record with a hardcoded `maxDepth: 10`
and empty domain filter, and the re-dispatched crawl (depth 1 < 10) enqueues
the grandchild link at depth 2. -/
theorem maxDepth_bypassed_by_pump_counterexample :
    enqueuesOf (crawlURL ⟨false, true, 1, .ok ⟨"<html></html>", "text/html", 200, none⟩,
        some ⟨"A", "seed page", "text/html", 2, "h1", some [⟨"http://a.com/p1", "p1"⟩]⟩,
        none, none, []⟩ 0 1 []).2 = [("http://a.com/p1", 1)] ∧
    pumpDispatch ⟨"http://a.com/p1", 1, none⟩
      = ⟨"http://a.com/p1", 1, 10, [], 5, none⟩ ∧
    enqueuesOf (crawlURL ⟨false, true, 1, .ok ⟨"<html></html>", "text/html", 200, none⟩,
        some ⟨"B", "child page", "text/html", 2, "h2", some [⟨"http://a.com/p2", "p2"⟩]⟩,
        none, none, []⟩ (pumpDispatch ⟨"http://a.com/p1", 1, none⟩).depth
        (pumpDispatch ⟨"http://a.com/p1", 1, none⟩).maxDepth
        (pumpDispatch ⟨"http://a.com/p1", 1, none⟩).domainFilter).2
      = [("http://a.com/p2", 2)] := by
  decide

/-- C3, amended. For the seed crawl itself (depth 0, maxDepth 1) the claim's
positive half holds: exactly the extracted links that pass the
validity/filter/already-crawled checks are enqueued, each at depth 1.  But
the frontier pump re-dispatches every claimed record with a hardcoded
`maxDepth` of 10 and an empty domain filter instead of the owning job's
configured values, so the configured bound is not respected for re-dispatched
descendants (see the counterexample). -/
theorem seed_enqueues_exactly_filtered_links
    (env : CrawlEnv) (filter : List String) (ls : List Link) (e : Extracted)
    (hrec : env.recentlyCrawled = false)
    (hrob : env.robotsAllowed = true)
    (hfetch : env.fetchResult.success = true)
    (hext : env.extracted = some e)
    (hlinks : e.links = some ls)
    (hsave : env.saveError = none)
    (hidx : env.indexError = none) :
    enqueuesOf (crawlURL env 0 1 filter).2
      = (queueNewURLsFilter ls filter env.crawledPages).map (fun u => (u, 1)) ∧
    (∀ r : URLRow, pumpDispatch r = ⟨r.url, r.depth, 10, [], 5, r.jobId⟩) := by
  obtain ⟨fr, hr⟩ : ∃ fr, env.fetchResult = .ok fr := by
    cases hf : env.fetchResult with
    | ok fr => exact ⟨fr, rfl⟩
    | err m => rw [hf] at hfetch; exact absurd hfetch (by simp [FetchResult.success])
  constructor
  · have hc : crawlURL env 0 1 filter
        = (⟨true, false, none⟩,
           [.recencyCheck, .robotsCheck, .setDelay (env.robotsDelay * 1000), .rateWait,
            .fetchCall, .extractCall, .saveCall, .indexCall] ++
             ((queueNewURLsFilter ls filter env.crawledPages).map
               (fun u => CrawlStep.enqueue u 1)) ++
             [.markProcessed true none]) := by
      simp [crawlURL, hrec, hrob, hr, hext, hlinks, hsave, hidx]
    rw [hc, enqueuesOf_append, enqueuesOf_append, enqueuesOf_mapEnqueue]
    simp [enqueuesOf]
  · intro r
    rfl

/-- C3, witness: the amended theorem at a concrete seed environment with two
extracted links of which one is filtered out by the domain filter. -/
theorem seed_enqueues_exactly_filtered_links_witness :
    enqueuesOf (crawlURL ⟨false, true, 1, .ok ⟨"<html></html>", "text/html", 200, none⟩,
        some ⟨"A", "seed", "text/html", 1, "h",
          some [⟨"http://a.com/p1", "p1"⟩, ⟨"http://evil.com/x", "x"⟩]⟩,
        none, none, []⟩ 0 1 ["a.com"]).2
      = (queueNewURLsFilter [⟨"http://a.com/p1", "p1"⟩, ⟨"http://evil.com/x", "x"⟩]
          ["a.com"] []).map (fun u => (u, 1)) ∧
    (∀ r : URLRow, pumpDispatch r = ⟨r.url, r.depth, 10, [], 5, r.jobId⟩) :=
  seed_enqueues_exactly_filtered_links
    ⟨false, true, 1, .ok ⟨"<html></html>", "text/html", 200, none⟩,
      some ⟨"A", "seed", "text/html", 1, "h",
        some [⟨"http://a.com/p1", "p1"⟩, ⟨"http://evil.com/x", "x"⟩]⟩,
      none, none, []⟩ ["a.com"]
    [⟨"http://a.com/p1", "p1"⟩, ⟨"http://evil.com/x", "x"⟩]
    ⟨"A", "seed", "text/html", 1, "h",
      some [⟨"http://a.com/p1", "p1"⟩, ⟨"http://evil.com/x", "x"⟩]⟩
    rfl rfl rfl rfl rfl rfl rfl

/-- C10. When `normalizeURL` fails (returns `null`), `isURLCrawled` reports
the URL as already crawled, and consequently such a link is silently dropped
by the frontier-expansion filter of `queueNewURLs` — it is never enqueued. -/
theorem normalizeFail_reported_as_crawled
    (crawledPages : List String) (links : List Link) (filter : List String) (u : String)
    (h : normalizeURL u = none) :
    isURLCrawled crawledPages u = true ∧
    u ∉ queueNewURLsFilter links filter crawledPages := by
  have h1 : isURLCrawled crawledPages u = true := by
    rw [isURLCrawled, h]
  refine ⟨h1, ?_⟩
  intro hmem
  rw [queueNewURLsFilter, List.mem_map] at hmem
  obtain ⟨l, hl, hurl⟩ := hmem
  obtain ⟨-, hpred⟩ := List.mem_filter.mp hl
  rw [hurl] at hpred
  simp only [Bool.and_eq_true, Bool.not_eq_true'] at hpred
  exact absurd h1 (by rw [hpred.2]; decide)

/-- C5, counterexample. The claim states that for every supported content
type the record's `contentHash` is the SHA-256 hex of the cleaned content
string stored in `content`.  For plain text the code hashes the RAW input:
on body `"a\nb"` the stored content is the cleaned `"a b"` but the hash is
taken over `"a\nb"`, so it differs from the hash of the stored content.  The
same holds for JSON, where the hash is taken over the pretty-printed
serialization before cleaning. -/
theorem contentHash_not_over_cleaned_counterexample :
    (extractFromPlainText "a\nb").content = "a b" ∧
    (extractFromPlainText "a\nb").contentHash
      ≠ sha256Hex ((extractFromPlainText "a\nb").content) ∧
    (extractFromJSON (.arr [.num 1, .num 2])).contentHash
      ≠ sha256Hex ((extractFromJSON (.arr [.num 1, .num 2])).content) := by
  refine ⟨by decide, by decide, by decide⟩

/-- C5, amended. The hash source depends on the content type: for HTML the
`contentHash` is the SHA-256 hex of the cleaned content string stored in
`content` (the claim holds); for plain text it is the SHA-256 of the raw
input body, and for JSON the SHA-256 of the re-serialized JSON before
cleaning, so for those types it coincides with the hash of the stored
content exactly when cleaning leaves the hashed string unchanged.  Extraction
is a pure function of the body, so the hash is identical across repeated
extractions. -/
theorem contentHash_source_per_type
    (title raw t : String) (links : List Link) (v : JValue) :
    ((extractFromHTMLCore title raw links).contentHash
        = sha256Hex (extractFromHTMLCore title raw links).content) ∧
    ((extractFromPlainText t).contentHash = sha256Hex t ∧
      (extractFromPlainText t).content = cleanText t) ∧
    ((extractFromJSON v).contentHash = sha256Hex (stringify2 v) ∧
      (extractFromJSON v).content = cleanText (stringify2 v)) ∧
    (cleanText t = t →
      (extractFromPlainText t).contentHash
        = sha256Hex (extractFromPlainText t).content) := by
  refine ⟨rfl, ⟨rfl, rfl⟩, ⟨rfl, rfl⟩, fun h => ?_⟩
  show sha256Hex t = sha256Hex (cleanText t)
  rw [h]

/-- C5, witness: the amended theorem applied at body `"ab"`, which cleaning
leaves unchanged, so there the hash does match the stored content. -/
theorem contentHash_source_per_type_witness :
    cleanText "ab" = "ab" ∧
    (extractFromPlainText "ab").contentHash
      = sha256Hex ((extractFromPlainText "ab").content) :=
  ⟨by decide, (contentHash_source_per_type "T" "x" "ab" [] .null).2.2.2 (by decide)⟩

/-- C10, witness: the unparseable link `not-a-url` is reported as crawled and
never enqueued. -/
theorem normalizeFail_reported_as_crawled_witness :
    isURLCrawled ["https://example.com/x"] "not-a-url" = true ∧
    "not-a-url" ∉ queueNewURLsFilter [⟨"not-a-url", "t"⟩] [] ["https://example.com/x"] :=
  normalizeFail_reported_as_crawled ["https://example.com/x"] [⟨"not-a-url", "t"⟩] []
    "not-a-url" (by decide)

/-- The SHA-256 embedding agrees with the FIPS 180-4 test vector for the
empty message. -/
theorem sha256_empty_vector :
    sha256Hex "" = "e3b0c44298fc1c149afbf4c8996fb92427ae41e4649b934ca495991b7852b855" := by decide

/-- The SHA-256 embedding agrees with the FIPS 180-4 test vector for `abc`. -/
theorem sha256_abc_vector :
    sha256Hex "abc" = "ba7816bf8f01cfea414140de5dae2223b00361a396177a9cb410ff61f20015ad" := by decide

/-- C7, counterexample. The claim states that a 5xx response or network error
while fetching robots.txt leaves both caches untouched.  On the code, with
empty caches and a 503 from `example.com`, `canCrawl` is indeed fail-open
`{allowed: true, delay: 1}`, but the in-process cache now holds a `null`
policy stamped with the current time and `robots_cache` now holds an upserted
row with an empty (permissive) body — both caches are poisoned for the next
24 h. -/
theorem robots_5xx_poisons_cache_counterexample :
    (canCrawl ⟨[], []⟩ 0 "example.com" (.serverError 503)
        (fun _ => true) (fun _ => none)).1 = ⟨true, 1⟩ ∧
    ((canCrawl ⟨[], []⟩ 0 "example.com" (.serverError 503)
        (fun _ => true) (fun _ => none)).2.mem.lookup "example.com"
      = some ⟨none, 0⟩) ∧
    ((canCrawl ⟨[], []⟩ 0 "example.com" (.serverError 503)
        (fun _ => true) (fun _ => none)).2.dbc.lookup "example.com"
      = some ⟨"", 1, 0⟩) := by
  decide

/-- C7, amended. When fetching robots.txt for an uncached host yields a 5xx
response or a network error, `canCrawl` for that host is unrestricted for
that call (`{allowed: true, delay: 1}`), BUT the failure does poison both
caches: the in-process cache stores a `null` policy with the current
timestamp and the durable `robots_cache` store is upserted with an empty
(permissive) policy body and default delay 1, so for the next 24 h the host
is served from the poisoned caches without re-fetching. -/
theorem robots_5xx_failopen_but_poisons_cache
    (st : RobotsState) (now : Nat) (domain : String)
    (outcome : RobotsFetchOutcome)
    (isAllowed : String → Bool) (delayFor : String → Option Nat)
    (hmem : st.mem.lookup domain = none)
    (hdb : st.dbc.lookup domain = none)
    (hout : (∃ s, outcome = .serverError s) ∨ (∃ m, outcome = .networkError m)) :
    canCrawl st now domain outcome isAllowed delayFor
      = (⟨true, 1⟩,
         { mem := upsertAssoc domain ⟨none, now⟩ st.mem,
           dbc := upsertAssoc domain ⟨"", 1, now⟩ st.dbc }) := by
  have hf : fetchRobotsTxt outcome = none := by
    rcases hout with ⟨s, rfl⟩ | ⟨m, rfl⟩ <;> rfl
  simp [canCrawl, getRobotsTxt, hmem, hdb, getRobotsTxtFetch, hf, crawlDelayOf]

/-- C7, witness: the amended theorem applied to empty caches and a 502 from
`example.com`. -/
theorem robots_5xx_failopen_but_poisons_cache_witness :
    canCrawl ⟨[], []⟩ 0 "example.com" (.serverError 502)
        (fun _ => true) (fun _ => none)
      = (⟨true, 1⟩,
         { mem := upsertAssoc "example.com" ⟨none, 0⟩ [],
           dbc := upsertAssoc "example.com" ⟨"", 1, 0⟩ [] }) :=
  robots_5xx_failopen_but_poisons_cache ⟨[], []⟩ 0 "example.com" (.serverError 502)
    (fun _ => true) (fun _ => none) rfl rfl (Or.inl ⟨502, rfl⟩)

/-- C2, counterexample. The claim states that the selection of pending rows
and their marking as processing happen in one atomic step.  On the code they
are two separate statements with no enclosing transaction, and this is
observable: on a queue holding a single pending row, two `getNextURLs`
executions interleaved between their `SELECT` and `UPDATE` both claim the same
row (batches `[1]` and `[1]`, attempts double-incremented to 2), whereas under
any serialization of atomic claim steps the first batch is `[1]` and the
second is necessarily `[]`. -/
theorem claimBatch_not_atomic_counterexample :
    interleavedClaim 0 10 [⟨1, "pending", 0, 5, 0, 0⟩]
      = ([1], [1], [⟨1, "processing", 2, 5, 0, 0⟩]) ∧
    (getNextURLs 0 10 [⟨1, "pending", 0, 5, 0, 0⟩]).1 = [1] ∧
    (getNextURLs 0 10 (getNextURLs 0 10 [⟨1, "pending", 0, 5, 0, 0⟩]).2).1 = [] := by
  decide

/-- C2, amended. The marking is a single `UPDATE` statement that sets
`status = 'processing'` and increments `attempts` together, so no observable
state holds a newly-processing row whose attempts were not incremented in
that same statement: every row of the post-update state is either an
untouched row outside the claimed id set, or a row of the pre-update state
with status set to processing and attempts exactly one higher.  (The
selection and the marking, however, are separate statements and not atomic:
see the counterexample.) -/
theorem claimUpdate_marks_and_increments_together
    (ids : List Nat) (q : List QRec) :
    ∀ r' ∈ claimUpdate ids q,
      (r' ∈ q ∧ r'.id ∉ ids) ∨
      (∃ r ∈ q, r.id ∈ ids ∧
        r' = { r with status := "processing", attempts := r.attempts + 1 }) := by
  intro r' hr'
  rw [claimUpdate, List.mem_map] at hr'
  obtain ⟨r, hr, heq⟩ := hr'
  by_cases h : r.id ∈ ids
  · right
    refine ⟨r, hr, h, ?_⟩
    rw [if_pos h] at heq
    exact heq.symm
  · left
    rw [if_neg h] at heq
    subst heq
    exact ⟨hr, h⟩

/-- C2, witness: the amended theorem applied to a one-row queue whose row is
claimed. -/
theorem claimUpdate_marks_and_increments_together_witness :
    ((⟨1, "processing", 1, 5, 0, 0⟩ : QRec)
        ∈ claimUpdate [1] [⟨1, "pending", 0, 5, 0, 0⟩]) ∧
    (((⟨1, "processing", 1, 5, 0, 0⟩ : QRec) ∈ [(⟨1, "pending", 0, 5, 0, 0⟩ : QRec)] ∧
        (⟨1, "processing", 1, 5, 0, 0⟩ : QRec).id ∉ [1]) ∨
      (∃ r ∈ [(⟨1, "pending", 0, 5, 0, 0⟩ : QRec)], r.id ∈ [1] ∧
        (⟨1, "processing", 1, 5, 0, 0⟩ : QRec)
          = { r with status := "processing", attempts := r.attempts + 1 })) :=
  ⟨by decide,
    claimUpdate_marks_and_increments_together [1] [⟨1, "pending", 0, 5, 0, 0⟩]
      ⟨1, "processing", 1, 5, 0, 0⟩ (by decide)⟩

/-- C8, counterexample. The claim states idempotence for every input on which
normalization succeeds, but `normalizeURL` strips only ONE trailing slash
(`url-manager.js` lines 27-30: a single `slice(0, -1)`): a path ending in two
slashes normalizes to one still ending in a slash, which a second pass strips
again. -/
theorem normalizeURL_not_idempotent_counterexample :
    normalizeURL "http://example.com/a//" = some "http://example.com/a/" ∧
    normalizeURL "http://example.com/a/" = some "http://example.com/a" ∧
    normalizeURL "http://example.com/a/" ≠ normalizeURL "http://example.com/a//" := by
  refine ⟨by decide, by decide, by decide⟩

/-- C8, amended. `normalizeURL` is idempotent on every successfully parsed
input whose pathname does not end in a double slash: the normalized output —
fragment dropped, query keys sorted with first-occurrence dedup, one trailing
slash stripped — re-parses to the normalized record and is a fixed point of
normalization. -/
theorem normalizeURL_idempotent_unless_double_slash (u s : String) (p : ParsedURL)
    (hp : parseURL u = some p)
    (hds : endsDoubleSlash p.pathname = false)
    (hn : normalizeURL u = some s) :
    normalizeURL s = some s := by
  rw [normalizeURL, hp] at hn
  dsimp only at hn
  have hs : s = serializeURL (normParsed p) := (Option.some_inj.mp hn).symm
  obtain ⟨hscheme, hlowp, hhost0, hhostE, hlowh, hpath, hpathC, hq, hknd⟩ :=
    parseChars_WF hp
  have hWF : WFParsed (normParsed p) := by
    refine ⟨hscheme, hlowp, hhost0, hhostE, hlowh, ?_, ?_, ?_, rfl⟩
    · exact stripTrailingSlash_start p.pathname hpath
    · exact fun c hc => hpathC c (stripTrailingSlash_mem p.pathname c hc)
    · exact fun kv hkv => hq kv ((sortedQueryObject_perm p.query).subset hkv)
  have hknd' : keysNodup (normParsed p).query :=
    (keysNodup_perm (sortedQueryObject_perm p.query)).mpr hknd
  have hfix' : jsObjOrder (normParsed p).query = (normParsed p).query :=
    jsObjOrder_sortedQueryObject p.query
  have hround := serializeURL_roundtrip (normParsed p) hWF hknd' hfix'
  have hidem : normParsed (normParsed p) = normParsed p := by
    cases p with
    | mk pr ho pa qu fr =>
      dsimp only [endsDoubleSlash] at hds
      show ParsedURL.mk pr ho (stripTrailingSlash (stripTrailingSlash pa))
          (sortedQueryObject (sortedQueryObject qu)) ""
        = ParsedURL.mk pr ho (stripTrailingSlash pa) (sortedQueryObject qu) ""
      rw [stripTrailingSlash_idem pa hds, sortedQueryObject_idem qu hknd]
  rw [hs, normalizeURL, hround]
  dsimp only
  rw [hidem]

/-- C8, witness: the amended theorem at the concrete input
`http://example.com/a/?b=2&a=1#x`, whose pathname `/a/` does not end in a
double slash; its normalization `http://example.com/a?a=1&b=2` is a fixed
point. -/
theorem normalizeURL_idempotent_unless_double_slash_witness :
    parseURL "http://example.com/a/?b=2&a=1#x"
      = some ⟨"http", "example.com", "/a/", [("b", "2"), ("a", "1")], "x"⟩ ∧
    endsDoubleSlash ("/a/" : String) = false ∧
    normalizeURL "http://example.com/a/?b=2&a=1#x"
      = some "http://example.com/a?a=1&b=2" ∧
    normalizeURL "http://example.com/a?a=1&b=2"
      = some "http://example.com/a?a=1&b=2" :=
  ⟨by decide, by decide, by decide,
    normalizeURL_idempotent_unless_double_slash
      "http://example.com/a/?b=2&a=1#x" "http://example.com/a?a=1&b=2"
      ⟨"http", "example.com", "/a/", [("b", "2"), ("a", "1")], "x"⟩
      (by decide) (by decide) (by decide)⟩
